import Mathlib

/-!
Verification of the structural JSON diff engine and the history store of the
`tool` repository.

The embedding translates, from the source:
* `compareJson` (src/src/utils/diffUtils.ts) — the flat differ;
* `generateDiff` (the JSON-diff view) — the structural renderer;
* `useHistory` (`addToHistory`, `removeFromHistory`, `clearHistory`) — the
  history store, with `Date.now()` passed explicitly and the reactive list
  modelled as explicit state passing.

JavaScript runtime facts are embedded as they behave on parsed JSON values:
`typeof null = "object"`, `typeof [] = typeof {} = "object"`; `key in v`
tests own property names (object keys; array index strings `"0".."len-1"`);
`Object.keys` of an array is its list of index strings; strict equality
`===` on the scalars it is applied to is value equality (the code only ever
applies it to two values of the same primitive `typeof`, or to `null`
versus a container, where it is decided by shape).
-/

namespace JsonTool

/-- Parsed JSON values: the input domain of the differ (spec §3).  Numbers are
modelled as integers; none of the algorithms inspect numeric structure beyond
equality. -/
inductive Value where
  | null
  | bool (b : Bool)
  | num (n : Int)
  | str (s : String)
  | arr (elems : List Value)
  | obj (fields : List (String × Value))

/-- JavaScript `typeof` on parsed JSON values (`typeof null`, `typeof []` and
`typeof {}` are all `"object"`). -/
def typeofV : Value → String
  | .null => "object"
  | .bool _ => "boolean"
  | .num _ => "number"
  | .str _ => "string"
  | .arr _ => "object"
  | .obj _ => "object"

/-- `original === null` (the model has no `undefined`; `JSON.parse` never
produces one). -/
def Value.isNull : Value → Bool
  | .null => true
  | _ => false

/-- `Array.isArray`. -/
def Value.isArray : Value → Bool
  | .arr _ => true
  | _ => false

/-- JavaScript strict equality `===` as the source applies it: to two scalars
of equal `typeof`, or to `null` versus anything.  Two containers compare
unequal (the source only reaches that comparison with references from two
separately parsed trees). -/
def jsStrictEq : Value → Value → Bool
  | .null, .null => true
  | .bool a, .bool b => a == b
  | .num a, .num b => a == b
  | .str a, .str b => a == b
  | _, _ => false

/-- Own enumerable property names, as `Object.keys` returns them: an object's
keys in insertion order, an array's index strings `"0" .. "len-1"`. -/
def objKeysOf : Value → List String
  | .obj kvs => kvs.map Prod.fst
  | .arr xs => (List.range xs.length).map (fun i => toString i)
  | _ => []

/-- JavaScript `key in v` on parsed JSON values: membership among own
property names. -/
def hasKey (v : Value) (k : String) : Bool :=
  match v with
  | .obj kvs => kvs.any (fun kv => kv.1 == k)
  | .arr xs => (List.range xs.length).any (fun i => toString i == k)
  | _ => false

/-- Property read `v[key]`: object lookup, or array element when `key` is one
of the array's index strings.  Absent properties (JS `undefined`) are
modelled as `null`; the algorithms only read a property after establishing
`hasKey` on the corresponding side. -/
def getProp (v : Value) (k : String) : Value :=
  match v with
  | .obj kvs =>
    match kvs.find? (fun kv => kv.1 == k) with
    | some kv => kv.2
    | none => .null
  | .arr xs =>
    match (List.range xs.length).find? (fun i => toString i == k) with
    | some i => xs.getD i .null
    | none => .null
  | _ => .null

/-- First-occurrence deduplication with an accumulator of already-seen
elements: the order produced by `new Set([...xs, ...ys])`. -/
def ddAux [DecidableEq α] (seen : List α) : List α → List α
  | [] => []
  | k :: ks => if k ∈ seen then ddAux seen ks else k :: ddAux (k :: seen) ks

/-- `Array.from(new Set(l))`: `l` with all but the first occurrence of each
element removed, first-seen order preserved. -/
def dedupFirst [DecidableEq α] (l : List α) : List α := ddAux [] l

/-- Record classification of the flat differ (and line classification of the
renderer). -/
inductive DiffType where
  | added
  | removed
  | modified
  | unchanged
deriving DecidableEq

/-- `DiffResult` of src/src/utils/diffUtils.ts; the optional `oldValue` /
`newValue` fields are `Option`s. -/
structure DiffResult where
  type : DiffType
  path : String
  oldValue : Option Value := none
  newValue : Option Value := none

/-- `path || 'root'`. -/
def orRoot (p : String) : String := if p = "" then "root" else p

/-- `path ? path + "." + key : key`. -/
def keyPath (p k : String) : String := if p = "" then k else p ++ "." ++ k

/-- `path ? path + "[" + i + "]" : "[" + i + "]"`. -/
def itemPath (p : String) (i : Nat) : String :=
  if p = "" then "[" ++ toString i ++ "]" else p ++ "[" ++ toString i ++ "]"

/-- Union of property names in the flat differ's object branch:
`Array.from(new Set([...Object.keys(original), ...Object.keys(modified)]))`. -/
def compareKeys (o m : Value) : List String :=
  dedupFirst (objKeysOf o ++ objKeysOf m)

theorem sizeOf_getProp_lt (v : Value) (k : String) (h : hasKey v k = true) :
    sizeOf (getProp v k) < sizeOf v := by
  cases v with
  | obj kvs =>
    simp only [hasKey, List.any_eq_true] at h
    obtain ⟨kv, hkv, hpk⟩ := h
    have hfind : (kvs.find? (fun kv => kv.1 == k)).isSome := by
      rw [List.find?_isSome]; exact ⟨kv, hkv, hpk⟩
    obtain ⟨kv', hkv'⟩ := Option.isSome_iff_exists.mp hfind
    have hmem : kv' ∈ kvs := List.mem_of_find?_eq_some hkv'
    have h1 : sizeOf kv' < sizeOf kvs := List.sizeOf_lt_of_mem hmem
    have h2 : sizeOf kv'.2 < sizeOf kv' := by
      obtain ⟨a, b⟩ := kv'; simp
    simp only [getProp, hkv']
    simp only [Value.obj.sizeOf_spec]
    omega
  | arr xs =>
    simp only [hasKey, List.any_eq_true] at h
    obtain ⟨i, hi, hik⟩ := h
    have hfind : ((List.range xs.length).find? (fun i => toString i == k)).isSome := by
      rw [List.find?_isSome]; exact ⟨i, hi, hik⟩
    obtain ⟨j, hj⟩ := Option.isSome_iff_exists.mp hfind
    have hjmem : j ∈ List.range xs.length := List.mem_of_find?_eq_some hj
    have hjlt : j < xs.length := List.mem_range.mp hjmem
    have hget : xs.getD j Value.null = xs.get ⟨j, hjlt⟩ := by
      simp [List.getD, List.getElem?_eq_getElem hjlt]
    have hmem : xs.get ⟨j, hjlt⟩ ∈ xs := List.get_mem xs j hjlt
    have h1 : sizeOf (xs.get ⟨j, hjlt⟩) < sizeOf xs := List.sizeOf_lt_of_mem hmem
    simp only [getProp, hj, hget]
    simp only [Value.arr.sizeOf_spec]
    omega
  | null => simp [hasKey] at h
  | bool b => simp [hasKey] at h
  | num n => simp [hasKey] at h
  | str s => simp [hasKey] at h

/-- The flat differ `compareJson` of src/src/utils/diffUtils.ts, branch for
branch: null handling, the `typeof` mismatch record, scalar comparison, the
positional array walk, and the key-union object walk (which, as in the
source, is also reached when exactly one side is an array, `typeof` not
distinguishing arrays from objects). -/
def compareJson (original modified : Value) (path : String) : List DiffResult :=
  if original.isNull then
    if modified.isNull then []
    else [{ type := .added, path := orRoot path, newValue := some modified }]
  else if modified.isNull then
    [{ type := .removed, path := orRoot path, oldValue := some original }]
  else if typeofV original ≠ typeofV modified then
    [{ type := .modified, path := orRoot path, oldValue := some original,
       newValue := some modified }]
  else if typeofV original ≠ "object" then
    if jsStrictEq original modified then []
    else [{ type := .modified, path := orRoot path, oldValue := some original,
            newValue := some modified }]
  else
    match original, modified with
    | .arr xs, .arr ys =>
      (List.range (max xs.length ys.length)).flatMap (fun i =>
        if h1 : i < xs.length then
          if h2 : i < ys.length then
            compareJson (xs.get ⟨i, h1⟩) (ys.get ⟨i, h2⟩) (itemPath path i)
          else
            [{ type := .removed, path := itemPath path i,
               oldValue := some (xs.get ⟨i, h1⟩) }]
        else
          [{ type := .added, path := itemPath path i,
             newValue := some (ys.getD i .null) }])
    | o, m =>
      (compareKeys o m).flatMap (fun k =>
        if hko : hasKey o k = false then
          [{ type := .added, path := keyPath path k, newValue := some (getProp m k) }]
        else if hkm : hasKey m k = false then
          [{ type := .removed, path := keyPath path k, oldValue := some (getProp o k) }]
        else
          compareJson (getProp o k) (getProp m k) (keyPath path k))
termination_by sizeOf original
decreasing_by
  · have := List.sizeOf_lt_of_mem (List.get_mem xs i h1)
    simp only [Value.arr.sizeOf_spec]; omega
  · exact sizeOf_getProp_lt o k (by simpa using hko)

/-- `DiffLine` of the JSON-diff view; absent optional fields are `none`
(`isStructural` absent is `false`, JS `undefined` being falsy to its
consumers). -/
structure DiffLine where
  type : DiffType
  key : Option String := none
  indent : Nat
  content : String
  oldValue : Option String := none
  newValue : Option String := none
  isStructural : Bool := false
deriving DecidableEq

/-- `'  '.repeat(indent)`: `2 * indent` spaces. -/
def indentStr (n : Nat) : String := String.mk (List.replicate (2 * n) ' ')

/-- `JSON.stringify` escaping for one character of a string literal. -/
def escapeJsonChar (c : Char) : List Char :=
  if c = '"' then ['\\', '"']
  else if c = '\\' then ['\\', '\\']
  else if c = '\n' then ['\\', 'n']
  else if c = '\t' then ['\\', 't']
  else if c = '\r' then ['\\', 'r']
  else [c]

/-- A `JSON.stringify`d string literal. -/
def quoteJson (s : String) : String :=
  String.mk ('"' :: s.data.flatMap escapeJsonChar ++ ['"'])

mutual

/-- `JSON.stringify(value)` (compact, no indentation): the value printer the
renderer uses for leaf and whole-collection display. -/
def jsonStringify : Value → String
  | .null => "null"
  | .bool true => "true"
  | .bool false => "false"
  | .num n => toString n
  | .str s => quoteJson s
  | .arr xs => "[" ++ stringifyList xs ++ "]"
  | .obj kvs => "\x7b" ++ stringifyFields kvs ++ "\x7d"

/-- Comma-joined stringified array elements. -/
def stringifyList : List Value → String
  | [] => ""
  | [x] => jsonStringify x
  | x :: y :: xs => jsonStringify x ++ "," ++ stringifyList (y :: xs)

/-- Comma-joined stringified object members. -/
def stringifyFields : List (String × Value) → String
  | [] => ""
  | [kv] => quoteJson kv.1 ++ ":" ++ jsonStringify kv.2
  | kv :: kv' :: kvs =>
    quoteJson kv.1 ++ ":" ++ jsonStringify kv.2 ++ "," ++ stringifyFields (kv' :: kvs)

end

/-- The key enumeration of the structural renderer `generateDiff`: the
first-seen union of both sides' property names, sorted (JS `Array.sort`,
lexicographic string order) unless both sides are arrays, which keep
positional order. -/
def rendererKeys (original modified : Value) : List String :=
  let isArr := original.isArray && modified.isArray
  let allKeys := dedupFirst (objKeysOf original ++ objKeysOf modified)
  if isArr then allKeys else allKeys.mergeSort

/-- The structural renderer `generateDiff` of the JSON-diff view: guards for
null and non-container roots, then the per-key walk over `rendererKeys`.  The
body of the source's `for (const key of allKeys)` loop appears inline (its
named form is `diffKeyLines` below, equal by `generateDiff_eq_flatMap`). -/
def generateDiff (original modified : Value) (indent : Nat) : List DiffLine :=
  if original.isNull && modified.isNull then []
  else if typeofV original ≠ typeofV modified ∨ typeofV original ≠ "object" ∨
          original.isNull = true ∨ modified.isNull = true then
    []
  else
    (rendererKeys original modified).flatMap (fun k =>
      let isArr := original.isArray && modified.isArray
      let origVal := getProp original k
      let modVal := getProp modified k
      let keyDisplay := if isArr then "" else "\"" ++ k ++ "\": "
      let ind := indentStr indent
      if hko : hasKey original k = false then
        [{ type := .added, key := some k, indent,
           content := ind ++ keyDisplay ++ jsonStringify modVal,
           newValue := some (jsonStringify modVal) }]
      else if hkm : hasKey modified k = false then
        [{ type := .removed, key := some k, indent,
           content := ind ++ keyDisplay ++ jsonStringify origVal,
           oldValue := some (jsonStringify origVal) }]
      else if typeofV origVal ≠ typeofV modVal then
        [{ type := .modified, key := some k, indent,
           content := ind ++ keyDisplay,
           oldValue := some (jsonStringify origVal),
           newValue := some (jsonStringify modVal) }]
      else if typeofV origVal = "object" ∧ origVal.isNull = false ∧ modVal.isNull = false then
        { type := .unchanged, indent,
          content := ind ++ keyDisplay ++ (if origVal.isArray then "[" else "\x7b"),
          isStructural := true }
        :: generateDiff origVal modVal (indent + 1)
        ++ [{ type := .unchanged, indent,
              content := ind ++ (if origVal.isArray then "]" else "\x7d"),
              isStructural := true }]
      else if jsStrictEq origVal modVal = false then
        [{ type := .modified, key := some k, indent,
           content := ind ++ keyDisplay,
           oldValue := some (jsonStringify origVal),
           newValue := some (jsonStringify modVal) }]
      else
        [{ type := .unchanged, key := some k, indent,
           content := ind ++ keyDisplay ++ jsonStringify origVal }])
termination_by sizeOf original
decreasing_by
  exact sizeOf_getProp_lt original k (by simpa using hko)

/-- The body of `generateDiff`'s `for (const key of allKeys)` loop as a named
function: the lines contributed by one key of the union. -/
def diffKeyLines (original modified : Value) (indent : Nat) (k : String) : List DiffLine :=
  let isArr := original.isArray && modified.isArray
  let origVal := getProp original k
  let modVal := getProp modified k
  let keyDisplay := if isArr then "" else "\"" ++ k ++ "\": "
  let ind := indentStr indent
  if hasKey original k = false then
    [{ type := .added, key := some k, indent,
       content := ind ++ keyDisplay ++ jsonStringify modVal,
       newValue := some (jsonStringify modVal) }]
  else if hasKey modified k = false then
    [{ type := .removed, key := some k, indent,
       content := ind ++ keyDisplay ++ jsonStringify origVal,
       oldValue := some (jsonStringify origVal) }]
  else if typeofV origVal ≠ typeofV modVal then
    [{ type := .modified, key := some k, indent,
       content := ind ++ keyDisplay,
       oldValue := some (jsonStringify origVal),
       newValue := some (jsonStringify modVal) }]
  else if typeofV origVal = "object" ∧ origVal.isNull = false ∧ modVal.isNull = false then
    { type := .unchanged, indent,
      content := ind ++ keyDisplay ++ (if origVal.isArray then "[" else "\x7b"),
      isStructural := true }
    :: generateDiff origVal modVal (indent + 1)
    ++ [{ type := .unchanged, indent,
          content := ind ++ (if origVal.isArray then "]" else "\x7d"),
          isStructural := true }]
  else if jsStrictEq origVal modVal = false then
    [{ type := .modified, key := some k, indent,
       content := ind ++ keyDisplay,
       oldValue := some (jsonStringify origVal),
       newValue := some (jsonStringify modVal) }]
  else
    [{ type := .unchanged, key := some k, indent,
       content := ind ++ keyDisplay ++ jsonStringify origVal }]

/-- `generateDiff` past its guards is exactly the per-key walk. -/
theorem generateDiff_eq_flatMap (original modified : Value) (indent : Nat)
    (h1 : ¬(original.isNull && modified.isNull) = true)
    (h2 : ¬(typeofV original ≠ typeofV modified ∨ typeofV original ≠ "object" ∨
      original.isNull = true ∨ modified.isNull = true)) :
    generateDiff original modified indent =
      (rendererKeys original modified).flatMap (diffKeyLines original modified indent) := by
  rw [generateDiff]
  simp only [h1, h2, if_false, ite_false]
  rfl

/-- `HistoryItem` of the history store. -/
structure HistoryItem where
  content : String
  timestamp : Nat
  preview : String
deriving DecidableEq

/-- `MAX_HISTORY_ITEMS`. -/
def MAX_HISTORY_ITEMS : Nat := 50

/-- `content.trim()`: both ends stripped of whitespace. -/
def jsTrim (s : String) : String :=
  String.mk (((s.data.dropWhile Char.isWhitespace).reverse.dropWhile
    Char.isWhitespace).reverse)

/-- `createPreview`: the trimmed content, truncated to 50 characters plus an
ellipsis when longer. -/
def createPreview (content : String) : String :=
  let trimmed := jsTrim content
  if trimmed.length ≤ 50 then trimmed
  else String.mk (trimmed.data.take 50) ++ "..."

/-- `addToHistory` of `useHistory`, with `Date.now()` passed in as `now` and
the reactive list as explicit state: reject blank content; move an existing
entry with identical content to the front with a refreshed timestamp;
otherwise prepend a new item and truncate to the cap. -/
def addToHistory (now : Nat) (content : String) (history : List HistoryItem) :
    List HistoryItem :=
  if jsTrim content = "" then history
  else
    let existingIndex := history.findIdx (fun item => item.content == content)
    if h : existingIndex < history.length then
      let existing := history.get ⟨existingIndex, h⟩
      { existing with timestamp := now } :: history.eraseIdx existingIndex
    else
      let newList :=
        { content, timestamp := now, preview := createPreview content } :: history
      if newList.length > MAX_HISTORY_ITEMS then newList.take MAX_HISTORY_ITEMS
      else newList

/-- `removeFromHistory`: `history.splice(index, 1)`. -/
def removeFromHistory (index : Nat) (history : List HistoryItem) : List HistoryItem :=
  history.eraseIdx index

/-- `clearHistory`: the list becomes empty. -/
def clearHistory : List HistoryItem := []

/-- The body of `compareJson`'s object-branch loop as a named function: the
records contributed by one key of the union. -/
def compareKeyRecords (o m : Value) (p : String) (k : String) : List DiffResult :=
  if hasKey o k = false then
    [{ type := .added, path := keyPath p k, newValue := some (getProp m k) }]
  else if hasKey m k = false then
    [{ type := .removed, path := keyPath p k, oldValue := some (getProp o k) }]
  else
    compareJson (getProp o k) (getProp m k) (keyPath p k)

/-- The body of `compareJson`'s array-branch loop as a named function: the
records contributed by one index. -/
def arrIdxRecords (xs ys : List Value) (p : String) (i : Nat) : List DiffResult :=
  if h1 : i < xs.length then
    if h2 : i < ys.length then
      compareJson (xs.get ⟨i, h1⟩) (ys.get ⟨i, h2⟩) (itemPath p i)
    else
      [{ type := .removed, path := itemPath p i, oldValue := some (xs.get ⟨i, h1⟩) }]
  else
    [{ type := .added, path := itemPath p i, newValue := some (ys.getD i .null) }]

/-- A key whose appearance inside a path is unambiguous: nonempty and free of
the separator characters `.` and `[` that the path grammar uses. -/
def pureKey (k : String) : Bool :=
  !k.data.isEmpty && k.data.all (fun c => !(c = '.' || c = '['))

/-- All object keys of a value, at every nesting level, are pure. -/
def pureKeys (v : Value) : Bool :=
  match v with
  | .obj kvs => kvs.attach.all (fun kv => pureKey kv.1.1 && pureKeys kv.1.2)
  | .arr xs => xs.attach.all (fun x => pureKeys x.1)
  | _ => true
termination_by sizeOf v
decreasing_by
  · have h1 := List.sizeOf_lt_of_mem kv.2
    have h2 : sizeOf kv.1.2 < sizeOf kv.1 := by
      obtain ⟨⟨a, b⟩, hmem⟩ := kv; simp
    simp only [Value.obj.sizeOf_spec]
    omega
  · have h1 := List.sizeOf_lt_of_mem x.2
    simp only [Value.arr.sizeOf_spec]
    omega

/-- Swapping the direction of a diff record: `Added` and `Removed` exchange,
`Modified` keeps its type, and the carried values swap sides. -/
def mirror (r : DiffResult) : DiffResult :=
  { type :=
      match r.type with
      | .added => .removed
      | .removed => .added
      | t => t,
    path := r.path, oldValue := r.newValue, newValue := r.oldValue }

/-! ## Structural induction over values, and key/lookup lemmas -/

/-- Induction over `Value` with hypotheses for the members of nested lists. -/
theorem Value.inductionOn {P : Value → Prop} (hnull : P .null) (hbool : ∀ b, P (.bool b))
    (hnum : ∀ n, P (.num n)) (hstr : ∀ s, P (.str s))
    (harr : ∀ xs, (∀ x ∈ xs, P x) → P (.arr xs))
    (hobj : ∀ kvs, (∀ kv ∈ kvs, P kv.2) → P (.obj kvs)) (v : Value) : P v := by
  have H : ∀ n, ∀ w : Value, sizeOf w ≤ n → P w := by
    intro n
    induction n with
    | zero => intro w hw; cases w <;> simp_all
    | succ n ih =>
      intro w hw
      cases w with
      | null => exact hnull
      | bool b => exact hbool b
      | num m => exact hnum m
      | str s => exact hstr s
      | arr xs =>
        refine harr xs (fun x hx => ih x ?_)
        have := List.sizeOf_lt_of_mem hx
        simp only [Value.arr.sizeOf_spec] at hw
        omega
      | obj kvs =>
        refine hobj kvs (fun kv hkv => ih kv.2 ?_)
        have h1 := List.sizeOf_lt_of_mem hkv
        have h2 : sizeOf kv.2 < sizeOf kv := by obtain ⟨a, b⟩ := kv; simp
        simp only [Value.obj.sizeOf_spec] at hw
        omega
  exact H (sizeOf v) v (le_refl _)

theorem mem_ddAux [DecidableEq α] {l : List α} :
    ∀ {seen : List α} {a : α}, a ∈ ddAux seen l ↔ a ∈ l ∧ a ∉ seen := by
  induction l with
  | nil => intro seen a; simp [ddAux]
  | cons k ks ih =>
    intro seen a
    rw [ddAux]
    split
    · rename_i hks
      rw [ih]
      constructor
      · rintro ⟨h1, h2⟩
        exact ⟨List.mem_cons_of_mem k h1, h2⟩
      · rintro ⟨h1, h2⟩
        rcases List.mem_cons.mp h1 with rfl | h1
        · exact absurd hks h2
        · exact ⟨h1, h2⟩
    · rename_i hks
      simp only [List.mem_cons, ih]
      constructor
      · rintro (rfl | ⟨h1, h2⟩)
        · exact ⟨Or.inl rfl, hks⟩
        · exact ⟨Or.inr h1, fun hs => h2 (Or.inr hs)⟩
      · rintro ⟨rfl | h1, h2⟩
        · exact Or.inl rfl
        · by_cases hak : a = k
          · exact Or.inl hak
          · refine Or.inr ⟨h1, fun hs => ?_⟩
            rcases hs with h | h
            · exact hak h
            · exact h2 h

theorem mem_dedupFirst [DecidableEq α] {l : List α} {a : α} :
    a ∈ dedupFirst l ↔ a ∈ l := by
  rw [dedupFirst, mem_ddAux]
  simp

theorem nodup_ddAux [DecidableEq α] {l : List α} :
    ∀ {seen : List α}, (ddAux seen l).Nodup := by
  induction l with
  | nil => intro seen; simp [ddAux]
  | cons k ks ih =>
    intro seen
    by_cases hks : k ∈ seen
    · rw [ddAux, if_pos hks]; exact ih
    · rw [ddAux, if_neg hks]
      refine List.Nodup.cons (fun hmem => ?_) ih
      exact (mem_ddAux.mp hmem).2 (List.mem_cons_self k seen)

theorem nodup_dedupFirst [DecidableEq α] {l : List α} : (dedupFirst l).Nodup :=
  nodup_ddAux

theorem hasKey_of_mem_objKeys {v : Value} {k : String} (h : k ∈ objKeysOf v) :
    hasKey v k = true := by
  cases v with
  | obj kvs =>
    simp only [objKeysOf, List.mem_map] at h
    obtain ⟨kv, hkv, rfl⟩ := h
    simp only [hasKey, List.any_eq_true]
    exact ⟨kv, hkv, by simp⟩
  | arr xs =>
    simp only [objKeysOf, List.mem_map] at h
    obtain ⟨i, hi, rfl⟩ := h
    simp only [hasKey, List.any_eq_true]
    exact ⟨i, hi, by simp⟩
  | null => simp [objKeysOf] at h
  | bool b => simp [objKeysOf] at h
  | num n => simp [objKeysOf] at h
  | str s => simp [objKeysOf] at h

theorem mem_compareKeys_hasKey {o m : Value} {k : String} (h : k ∈ compareKeys o m) :
    hasKey o k = true ∨ hasKey m k = true := by
  rw [compareKeys, mem_dedupFirst, List.mem_append] at h
  exact h.imp hasKey_of_mem_objKeys hasKey_of_mem_objKeys

theorem getProp_obj_mem {kvs : List (String × Value)} {k : String}
    (h : hasKey (.obj kvs) k = true) :
    ∃ kv ∈ kvs, kv.1 = k ∧ getProp (.obj kvs) k = kv.2 := by
  simp only [hasKey, List.any_eq_true] at h
  obtain ⟨kv, hkv, hpk⟩ := h
  have hfind : ((kvs.find? (fun kv => kv.1 == k)).isSome) := by
    rw [List.find?_isSome]; exact ⟨kv, hkv, hpk⟩
  obtain ⟨kv', hkv'⟩ := Option.isSome_iff_exists.mp hfind
  refine ⟨kv', List.mem_of_find?_eq_some hkv', ?_, ?_⟩
  · have := List.find?_some hkv'
    simpa using this
  · simp [getProp, hkv']

theorem getProp_arr_mem {xs : List Value} {k : String} (h : hasKey (.arr xs) k = true) :
    ∃ x ∈ xs, getProp (.arr xs) k = x := by
  simp only [hasKey, List.any_eq_true] at h
  obtain ⟨i, hi, hik⟩ := h
  have hfind : (((List.range xs.length).find? (fun i => toString i == k)).isSome) := by
    rw [List.find?_isSome]; exact ⟨i, hi, hik⟩
  obtain ⟨j, hj⟩ := Option.isSome_iff_exists.mp hfind
  have hjlt : j < xs.length := List.mem_range.mp (List.mem_of_find?_eq_some hj)
  have hget : xs.getD j Value.null = xs.get ⟨j, hjlt⟩ := by
    simp [List.getD, List.getElem?_eq_getElem hjlt]
  refine ⟨xs.get ⟨j, hjlt⟩, List.get_mem xs j hjlt, ?_⟩
  simp only [getProp, hj]
  exact hget

/-- Whichever side of the comparison `k` came from, once both `hasKey` tests
pass, a looked-up value is a member of the container's nested list. -/
theorem getProp_mem_of_hasKey {v : Value} {k : String} (h : hasKey v k = true) :
    (∃ kvs, v = .obj kvs ∧ ∃ kv ∈ kvs, getProp v k = kv.2) ∨
    (∃ xs, v = .arr xs ∧ ∃ x ∈ xs, getProp v k = x) := by
  cases v with
  | obj kvs =>
    obtain ⟨kv, hkv, _, hg⟩ := getProp_obj_mem h
    exact Or.inl ⟨kvs, rfl, kv, hkv, hg⟩
  | arr xs =>
    obtain ⟨x, hx, hg⟩ := getProp_arr_mem h
    exact Or.inr ⟨xs, rfl, x, hx, hg⟩
  | null => simp [hasKey] at h
  | bool b => simp [hasKey] at h
  | num n => simp [hasKey] at h
  | str s => simp [hasKey] at h

/-! ## Claim C1: `compareJson({}, [])`

The claim asserts one `Modified` record at `"root"`.  In the source,
`typeof {}` and `typeof []` are both `"object"`, only one side is an array,
and the walk falls through to the object branch with an empty key union: the
result is the empty list. -/

unseal compareJson in
/-- C1 (counterexample): `compareJson({}, [])` does not return exactly one
record — it returns none. -/
theorem compareJson_empty_obj_empty_arr_not_one_record :
    (compareJson (.obj []) (.arr []) "").length ≠ 1 := by decide

unseal compareJson in
/-- C1 (amended): for `original = {}` and `modified = []`, `compareJson`
returns the empty list: the `typeof` test cannot distinguish an object from
an array, so the comparison reaches the object branch, whose key union is
empty, and no record is emitted at all. -/
theorem compareJson_empty_obj_empty_arr_eq_nil :
    compareJson (.obj []) (.arr []) "" = [] := by rfl

/-! ## Claim C2: `compareJson({a:{b:1}}, {a:null})`

The claim asserts one `Modified` record at `"a"`.  The recursive call at key
`a` sees `modified === null` and that check precedes the `typeof`
comparison, so the source emits a `Removed` record instead. -/

unseal compareJson in
/-- C2 (counterexample): the single record emitted for
`compareJson({a:{b:1}}, {a:null})` is not of type `Modified`. -/
theorem compareJson_nested_null_not_modified :
    (compareJson (.obj [("a", .obj [("b", .num 1)])]) (.obj [("a", .null)]) "").map
      (fun r => r.type) ≠ [DiffType.modified] := by decide

unseal compareJson in
/-- C2 (amended): `compareJson({a:{b:1}}, {a:null})` returns exactly one
record, of type `Removed`, at path `"a"`, carrying `oldValue = {b:1}` (the
`modified === null` branch fires before the type comparison), and does not
recurse into the nested key `b`. -/
theorem compareJson_nested_null_single_removed :
    compareJson (.obj [("a", .obj [("b", .num 1)])]) (.obj [("a", .null)]) ""
      = [{ type := .removed, path := "a", oldValue := some (.obj [("b", .num 1)]) }] := by
  rfl

/-! ## Claim C3: renderer `Modified` lines for runtime-type mismatches

The claim's parenthetical includes "object vs. array", but those two share
`typeof === "object"`: the renderer's mismatch branch does not fire and the
pair is recursed into as if both were keyed containers.  For every other
runtime-type mismatch the claim holds, settled on the named per-key loop body
`diffKeyLines`. -/

unseal generateDiff String.ltb List.mergeSort List.merge in
/-- C3 (counterexample): for `{x:[1]}` versus `{x:{a:1}}` — the key `x`
present in both, values of different runtime types (array vs. object) — the
renderer emits no `Modified` line at all, but a structural open line, a
`Removed`/`Added` pair from recursing into the mismatched containers, and a
structural close line. -/
theorem generateDiff_arr_vs_obj_recurses :
    ((generateDiff (.obj [("x", .arr [.num 1])]) (.obj [("x", .obj [("a", .num 1)])]) 0).countP
        (fun l => decide (l.type = DiffType.modified))) = 0 ∧
      (generateDiff (.obj [("x", .arr [.num 1])]) (.obj [("x", .obj [("a", .num 1)])]) 0).map
        (fun l => l.type)
        = [.unchanged, .removed, .added, .unchanged] := by
  constructor <;> decide

/-- C3 (amended): for a key present in both containers whose two values have
different JavaScript `typeof` (container vs. scalar, number vs. string, etc.
— object vs. array excluded, both being `typeof "object"`; such pairs are
recursed into instead), the loop body emits exactly one `Modified` line
carrying both printed values, and does not recurse into either value. -/
theorem diffKeyLines_typeof_mismatch_single_modified (o m : Value) (ind : Nat) (k : String)
    (hko : hasKey o k = true) (hkm : hasKey m k = true)
    (hty : typeofV (getProp o k) ≠ typeofV (getProp m k)) :
    diffKeyLines o m ind k =
      [{ type := .modified, key := some k, indent := ind,
         content := indentStr ind ++
           (if o.isArray && m.isArray then "" else "\"" ++ k ++ "\": "),
         oldValue := some (jsonStringify (getProp o k)),
         newValue := some (jsonStringify (getProp m k)) }] := by
  simp only [diffKeyLines, hko, hkm]
  simp [hty]

/-- C3 (witness): instantiating the amended claim at `{k:1}` versus
`{k:"s"}` and the key `k`. -/
theorem diffKeyLines_typeof_mismatch_witness :
    hasKey (.obj [("k", .num 1)]) "k" = true ∧
      hasKey (.obj [("k", .str "s")]) "k" = true ∧
      typeofV (getProp (.obj [("k", .num 1)]) "k")
        ≠ typeofV (getProp (.obj [("k", .str "s")]) "k") ∧
      diffKeyLines (.obj [("k", .num 1)]) (.obj [("k", .str "s")]) 0 "k" =
        [{ type := .modified, key := some "k", indent := 0,
           content := indentStr 0 ++
             (if (Value.obj [("k", .num 1)]).isArray && (Value.obj [("k", .str "s")]).isArray
              then "" else "\"" ++ "k" ++ "\": "),
           oldValue := some (jsonStringify (getProp (.obj [("k", .num 1)]) "k")),
           newValue := some (jsonStringify (getProp (.obj [("k", .str "s")]) "k")) }] :=
  ⟨by decide, by decide, by decide,
    diffKeyLines_typeof_mismatch_single_modified (.obj [("k", .num 1)])
      (.obj [("k", .str "s")]) 0 "k" (by decide) (by decide) (by decide)⟩

/-! ## Decimal representation of array indices

`compareJson` and `generateDiff` address array elements through the decimal
strings `toString i`.  The lemmas below characterise `Nat.repr`: its
characters are digits, and it is injective. -/

/-- The digit list of `n`, most significant first: the reference shape of
`Nat.toDigitsCore`'s output. -/
def digitsOf (n : Nat) : List Char :=
  if h : n < 10 then [Nat.digitChar n]
  else digitsOf (n / 10) ++ [Nat.digitChar (n % 10)]
termination_by n
decreasing_by
  exact Nat.div_lt_self (by omega) (by omega)

theorem digitsOf_lt {n : Nat} (h : n < 10) : digitsOf n = [Nat.digitChar n] := by
  rw [digitsOf, dif_pos h]

theorem digitsOf_ge {n : Nat} (h : ¬n < 10) :
    digitsOf n = digitsOf (n / 10) ++ [Nat.digitChar (n % 10)] := by
  rw [digitsOf, dif_neg h]

theorem toDigitsCore_eq_digitsOf :
    ∀ (fuel n : Nat) (acc : List Char), n < fuel →
      Nat.toDigitsCore 10 fuel n acc = digitsOf n ++ acc := by
  intro fuel
  induction fuel with
  | zero => intro n acc h; omega
  | succ f ih =>
    intro n acc h
    rw [Nat.toDigitsCore]
    by_cases h0 : n / 10 = 0
    · have hn : n < 10 := by omega
      rw [digitsOf_lt hn, if_pos h0, Nat.mod_eq_of_lt hn]
      rfl
    · have hn : ¬n < 10 := by omega
      rw [if_neg h0, ih (n / 10) _ (by omega), digitsOf_ge hn, List.append_assoc]
      rfl

theorem toString_nat_data (n : Nat) : (toString n).data = digitsOf n := by
  show (Nat.repr n).data = digitsOf n
  rw [Nat.repr, Nat.toDigits, toDigitsCore_eq_digitsOf (n + 1) n [] (by omega),
    List.append_nil]
  rfl

theorem digitsOf_all_digits (n : Nat) : ∀ c ∈ digitsOf n, c.isDigit = true := by
  induction n using Nat.strong_induction_on with
  | _ n ih =>
    rw [digitsOf]
    have hd : ∀ d, d < 10 → (Nat.digitChar d).isDigit = true := by decide
    by_cases h : n < 10
    · rw [dif_pos h]
      intro c hc
      rw [List.mem_singleton] at hc
      subst hc
      exact hd n h
    · rw [dif_neg h]
      intro c hc
      rcases List.mem_append.mp hc with hc | hc
      · exact ih (n / 10) (Nat.div_lt_self (by omega) (by omega)) c hc
      · rw [List.mem_singleton] at hc
        subst hc
        exact hd (n % 10) (by omega)

theorem digitsOf_ne_nil (n : Nat) : digitsOf n ≠ [] := by
  rw [digitsOf]
  by_cases h : n < 10
  · rw [dif_pos h]; simp
  · rw [dif_neg h]; simp

theorem digitsOf_injective : ∀ n m : Nat, digitsOf n = digitsOf m → n = m := by
  intro n
  induction n using Nat.strong_induction_on with
  | _ n ih =>
    intro m heq
    have hinj : ∀ d, d < 10 → ∀ e, e < 10 →
        Nat.digitChar d = Nat.digitChar e → d = e := by decide
    by_cases hn : n < 10
    · by_cases hm : m < 10
      · rw [digitsOf_lt hn, digitsOf_lt hm] at heq
        exact hinj n hn m hm (List.singleton_inj.mp heq)
      · rw [digitsOf_lt hn, digitsOf_ge hm] at heq
        have hlen : (1 : Nat) = (digitsOf (m / 10)).length + 1 := by
          simpa using congrArg List.length heq
        have h0 : (digitsOf (m / 10)).length = 0 := by omega
        exact absurd (List.length_eq_zero.mp h0) (digitsOf_ne_nil (m / 10))
    · by_cases hm : m < 10
      · rw [digitsOf_ge hn, digitsOf_lt hm] at heq
        have hlen : (digitsOf (n / 10)).length + 1 = 1 := by
          simpa using congrArg List.length heq
        have h0 : (digitsOf (n / 10)).length = 0 := by omega
        exact absurd (List.length_eq_zero.mp h0) (digitsOf_ne_nil (n / 10))
      · rw [digitsOf_ge hn, digitsOf_ge hm] at heq
        have hsplit := List.append_inj' heq (by simp)
        have hdiv : n / 10 = m / 10 :=
          ih (n / 10) (Nat.div_lt_self (by omega) (by omega)) (m / 10) hsplit.1
        have hmod : n % 10 = m % 10 :=
          hinj _ (by omega) _ (by omega) (List.singleton_inj.mp hsplit.2)
        omega

theorem toString_nat_injective {n m : Nat} (h : toString n = toString m) : n = m := by
  apply digitsOf_injective
  rw [← toString_nat_data, ← toString_nat_data, h]

/-! ## First-seen union order -/

theorem ddAux_congr [DecidableEq α] {s1 s2 : List α} (l : List α)
    (h : ∀ a ∈ l, (a ∈ s1 ↔ a ∈ s2)) : ddAux s1 l = ddAux s2 l := by
  induction l generalizing s1 s2 with
  | nil => rfl
  | cons k ks ih =>
    rw [ddAux, ddAux]
    have hk := h k (List.mem_cons_self k ks)
    by_cases h1 : k ∈ s1
    · rw [if_pos h1, if_pos (hk.mp h1)]
      exact ih (fun a ha => h a (List.mem_cons_of_mem _ ha))
    · rw [if_neg h1, if_neg (fun h2 => h1 (hk.mpr h2))]
      congr 1
      refine ih (fun a ha => ?_)
      simp only [List.mem_cons]
      exact or_congr Iff.rfl (h a (List.mem_cons_of_mem _ ha))

theorem ddAux_eq_filter [DecidableEq α] :
    ∀ {l : List α}, l.Nodup → ∀ seen : List α,
      ddAux seen l = l.filter (fun a => decide (a ∉ seen)) := by
  intro l
  induction l with
  | nil => intro _ seen; rfl
  | cons k ks ih =>
    intro hnd seen
    have hknot : k ∉ ks := (List.nodup_cons.mp hnd).1
    have htl : ks.Nodup := (List.nodup_cons.mp hnd).2
    rw [ddAux, List.filter_cons]
    by_cases hk : k ∈ seen
    · rw [if_pos hk]
      simp only [hk, not_true_eq_false, decide_False, Bool.false_eq_true, if_false]
      exact ih htl seen
    · rw [if_neg hk]
      simp only [hk, not_false_eq_true, decide_True, if_true]
      congr 1
      rw [ddAux_congr ks (fun a ha => ?_), ih htl seen]
      simp only [List.mem_cons]
      constructor
      · rintro (rfl | h)
        · exact absurd ha hknot
        · exact h
      · exact Or.inr

theorem dedupFirst_eq_self_of_nodup [DecidableEq α] {l : List α} (h : l.Nodup) :
    dedupFirst l = l := by
  rw [dedupFirst, ddAux_eq_filter h]
  simp

theorem ddAux_append [DecidableEq α] (xs : List α) :
    ∀ (seen ys : List α),
      ddAux seen (xs ++ ys) = ddAux seen xs ++ ddAux (xs ++ seen) ys := by
  induction xs with
  | nil =>
    intro seen ys
    simp [ddAux]
  | cons k ks ih =>
    intro seen ys
    rw [List.cons_append, ddAux, ddAux]
    by_cases hk : k ∈ seen
    · rw [if_pos hk, if_pos hk, ih]
      congr 1
      refine ddAux_congr ys (fun a _ => ?_)
      simp only [List.mem_append, List.mem_cons]
      constructor
      · rintro (h | h)
        · exact Or.inl (Or.inr h)
        · exact Or.inr h
      · rintro ((rfl | h) | h)
        · exact Or.inr hk
        · exact Or.inl h
        · exact Or.inr h
    · rw [if_neg hk, if_neg hk, ih]
      rw [List.cons_append]
      congr 2
      refine ddAux_congr ys (fun a _ => ?_)
      simp only [List.mem_append, List.mem_cons]
      constructor
      · rintro (h | rfl | h)
        · exact Or.inl (Or.inr h)
        · exact Or.inl (Or.inl rfl)
        · exact Or.inr h
      · rintro ((rfl | h) | h)
        · exact Or.inr (Or.inl rfl)
        · exact Or.inl h
        · exact Or.inr (Or.inr h)

theorem dedupFirst_append [DecidableEq α] (xs ys : List α) :
    dedupFirst (xs ++ ys) = dedupFirst xs ++ ddAux xs ys := by
  rw [dedupFirst, ddAux_append, dedupFirst]
  congr 1
  exact ddAux_congr ys (fun a _ => by simp)

theorem range_append_filter (a : Nat) :
    ∀ b, List.range a ++ (List.range b).filter (fun j => decide (a ≤ j)) =
      List.range (max a b) := by
  intro b
  induction b with
  | zero => simp
  | succ b ihb =>
    rw [List.range_succ, List.filter_append]
    by_cases hab : a ≤ b
    · have h1 : max a (b + 1) = b + 1 := by omega
      have h2 : max a b = b := by omega
      rw [h1]
      rw [h2] at ihb
      rw [← List.append_assoc, ihb]
      simp [hab, List.range_succ]
    · have h1 : max a (b + 1) = a := by omega
      have h2 : max a b = a := by omega
      rw [h1]
      rw [h2] at ihb
      rw [← List.append_assoc, ihb]
      simp [hab]

/-! ## Claim C4: symmetry of classification -/

theorem dedupFirst_append_perm [DecidableEq α] (xs ys : List α) :
    (dedupFirst (xs ++ ys)).Perm (dedupFirst (ys ++ xs)) := by
  apply List.perm_of_nodup_nodup_toFinset_eq nodup_dedupFirst nodup_dedupFirst
  ext a
  simp only [List.mem_toFinset, mem_dedupFirst, List.mem_append]
  exact or_comm

theorem beq_symm_eq {α} [BEq α] [LawfulBEq α] (x y : α) : (x == y) = (y == x) := by
  by_cases h : x = y
  · subst h; rfl
  · rw [beq_eq_false_iff_ne.mpr h, beq_eq_false_iff_ne.mpr (fun e => h e.symm)]

theorem jsStrictEq_comm (a b : Value) : jsStrictEq a b = jsStrictEq b a := by
  cases a <;> cases b <;> simp only [jsStrictEq] <;> exact beq_symm_eq ..

theorem eq_arr_or_obj_of_typeof_object {v : Value} (ho : typeofV v = "object")
    (hn : v.isNull = false) : (∃ xs, v = .arr xs) ∨ (∃ kvs, v = .obj kvs) := by
  cases v <;> simp_all [typeofV, Value.isNull]

theorem compareJson_objobj (kvs kvs2 : List (String × Value)) (p : String) :
    compareJson (.obj kvs) (.obj kvs2) p =
      (compareKeys (.obj kvs) (.obj kvs2)).flatMap
        (compareKeyRecords (.obj kvs) (.obj kvs2) p) := by
  rw [compareJson]
  simp only [Value.isNull, typeofV, ne_eq, not_true_eq_false, Bool.false_eq_true, if_false,
    not_false_eq_true, ite_false, ite_true]
  case x => intro xs ys h; exact Value.noConfusion h
  rfl

theorem compareJson_arrobj (xs : List Value) (kvs2 : List (String × Value)) (p : String) :
    compareJson (.arr xs) (.obj kvs2) p =
      (compareKeys (.arr xs) (.obj kvs2)).flatMap
        (compareKeyRecords (.arr xs) (.obj kvs2) p) := by
  rw [compareJson]
  simp only [Value.isNull, typeofV, ne_eq, not_true_eq_false, Bool.false_eq_true, if_false,
    not_false_eq_true, ite_false, ite_true]
  case x => intro xs1 ys1 h1 h2; exact Value.noConfusion h2
  rfl

theorem compareJson_objarr (kvs : List (String × Value)) (ys : List Value) (p : String) :
    compareJson (.obj kvs) (.arr ys) p =
      (compareKeys (.obj kvs) (.arr ys)).flatMap
        (compareKeyRecords (.obj kvs) (.arr ys) p) := by
  rw [compareJson]
  simp only [Value.isNull, typeofV, ne_eq, not_true_eq_false, Bool.false_eq_true, if_false,
    not_false_eq_true, ite_false, ite_true]
  case x => intro xs1 ys1 h1 h2; exact Value.noConfusion h1
  rfl

theorem compareJson_arrarr (xs ys : List Value) (p : String) :
    compareJson (.arr xs) (.arr ys) p =
      (List.range (max xs.length ys.length)).flatMap (arrIdxRecords xs ys p) := by
  rw [compareJson]
  simp only [Value.isNull, typeofV, ne_eq, not_true_eq_false, Bool.false_eq_true, if_false,
    not_false_eq_true, ite_false, ite_true]
  rfl

theorem compareKeyRecords_symm (o m : Value) (p k : String)
    (hunion : hasKey o k = true ∨ hasKey m k = true)
    (hrec : hasKey o k = true → hasKey m k = true →
      (compareJson (getProp m k) (getProp o k) (keyPath p k)).Perm
        ((compareJson (getProp o k) (getProp m k) (keyPath p k)).map mirror)) :
    (compareKeyRecords m o p k).Perm ((compareKeyRecords o m p k).map mirror) := by
  rw [compareKeyRecords, compareKeyRecords]
  by_cases h1 : hasKey o k = false
  · have h2 : hasKey m k = true := by
      rcases hunion with h | h
      · rw [h] at h1; cases h1
      · exact h
    apply List.Perm.of_eq
    simp [h1, h2, mirror]
  · have h1t : hasKey o k = true := by simpa using h1
    by_cases h2 : hasKey m k = false
    · apply List.Perm.of_eq
      simp [h1t, h2, mirror]
    · have h2t : hasKey m k = true := by simpa using h2
      simp only [h1t, h2t, Bool.true_eq_false, if_false, ite_false]
      exact hrec h1t h2t

theorem flatMap_compareKeyRecords_symm (o m : Value) (p : String)
    (hrec : ∀ k, hasKey o k = true → hasKey m k = true →
      (compareJson (getProp m k) (getProp o k) (keyPath p k)).Perm
        ((compareJson (getProp o k) (getProp m k) (keyPath p k)).map mirror)) :
    ((compareKeys m o).flatMap (compareKeyRecords m o p)).Perm
      (((compareKeys o m).flatMap (compareKeyRecords o m p)).map mirror) := by
  have step1 : ((compareKeys m o).flatMap (compareKeyRecords m o p)).Perm
      ((compareKeys o m).flatMap (compareKeyRecords m o p)) :=
    List.Perm.flatMap_right _ (dedupFirst_append_perm _ _)
  have step2 : ((compareKeys o m).flatMap (compareKeyRecords m o p)).Perm
      ((compareKeys o m).flatMap (fun k => (compareKeyRecords o m p k).map mirror)) := by
    apply List.Perm.flatMap_left
    intro k hk
    exact compareKeyRecords_symm o m p k (mem_compareKeys_hasKey hk) (hrec k)
  have step3 : (compareKeys o m).flatMap (fun k => (compareKeyRecords o m p k).map mirror) =
      ((compareKeys o m).flatMap (compareKeyRecords o m p)).map mirror :=
    (List.map_flatMap _ _ _).symm
  exact (step1.trans step2).trans (List.Perm.of_eq step3)

theorem arrIdxRecords_symm (xs ys : List Value) (p : String) (i : Nat)
    (hi : i < max xs.length ys.length)
    (hrec : ∀ h1 : i < xs.length, ∀ h2 : i < ys.length,
      (compareJson (ys.get ⟨i, h2⟩) (xs.get ⟨i, h1⟩) (itemPath p i)).Perm
        ((compareJson (xs.get ⟨i, h1⟩) (ys.get ⟨i, h2⟩) (itemPath p i)).map mirror)) :
    (arrIdxRecords ys xs p i).Perm ((arrIdxRecords xs ys p i).map mirror) := by
  rw [arrIdxRecords, arrIdxRecords]
  by_cases h1 : i < xs.length
  · by_cases h2 : i < ys.length
    · rw [dif_pos h1, dif_pos h2, dif_pos h2, dif_pos h1]
      exact hrec h1 h2
    · rw [dif_neg h2, dif_pos h1, dif_neg h2]
      apply List.Perm.of_eq
      simp [mirror, List.getElem?_eq_getElem h1]
  · have h2 : i < ys.length := by omega
    rw [dif_pos h2, dif_neg h1, dif_neg h1]
    apply List.Perm.of_eq
    simp [mirror, List.getElem?_eq_getElem h2]

theorem compareJson_symm_aux : ∀ n (A B : Value) (p : String), sizeOf A ≤ n →
    (compareJson B A p).Perm ((compareJson A B p).map mirror) := by
  intro n
  induction n with
  | zero => intro A B p h; cases A <;> simp_all
  | succ n ih =>
    intro A B p hsz
    cases A with
    | null =>
      cases B
      all_goals apply List.Perm.of_eq
      all_goals rw [compareJson]
      all_goals try rw [compareJson]
      all_goals try rw [jsStrictEq_comm]
      all_goals simp [Value.isNull, typeofV, jsStrictEq, mirror, apply_ite (List.map mirror)]
      all_goals intro xs1 ys1 e1 e2
      all_goals (first | exact Value.noConfusion e1 | exact Value.noConfusion e2)
    | bool a =>
      cases B
      all_goals apply List.Perm.of_eq
      all_goals rw [compareJson]
      all_goals try rw [compareJson]
      all_goals try rw [jsStrictEq_comm]
      all_goals simp [Value.isNull, typeofV, jsStrictEq, mirror, apply_ite (List.map mirror)]
      all_goals intro xs1 ys1 e1 e2
      all_goals (first | exact Value.noConfusion e1 | exact Value.noConfusion e2)
    | num a =>
      cases B
      all_goals apply List.Perm.of_eq
      all_goals rw [compareJson]
      all_goals try rw [compareJson]
      all_goals try rw [jsStrictEq_comm]
      all_goals simp [Value.isNull, typeofV, jsStrictEq, mirror, apply_ite (List.map mirror)]
      all_goals intro xs1 ys1 e1 e2
      all_goals (first | exact Value.noConfusion e1 | exact Value.noConfusion e2)
    | str a =>
      cases B
      all_goals apply List.Perm.of_eq
      all_goals rw [compareJson]
      all_goals try rw [compareJson]
      all_goals try rw [jsStrictEq_comm]
      all_goals simp [Value.isNull, typeofV, jsStrictEq, mirror, apply_ite (List.map mirror)]
      all_goals intro xs1 ys1 e1 e2
      all_goals (first | exact Value.noConfusion e1 | exact Value.noConfusion e2)
    | arr xs =>
      cases B with
      | arr ys =>
        rw [compareJson_arrarr, compareJson_arrarr, Nat.max_comm]
        have step : ((List.range (max xs.length ys.length)).flatMap
            (arrIdxRecords ys xs p)).Perm
            ((List.range (max xs.length ys.length)).flatMap
              (fun i => (arrIdxRecords xs ys p i).map mirror)) := by
          apply List.Perm.flatMap_left
          intro i hiR
          have hi : i < max xs.length ys.length := List.mem_range.mp hiR
          apply arrIdxRecords_symm xs ys p i hi
          intro h1 h2
          apply ih
          have hmem := List.sizeOf_lt_of_mem (List.get_mem xs i h1)
          simp only [Value.arr.sizeOf_spec] at hsz
          omega
        exact step.trans (List.Perm.of_eq (List.map_flatMap _ _ _).symm)
      | obj kvs2 =>
        rw [compareJson_objarr, compareJson_arrobj]
        apply flatMap_compareKeyRecords_symm
        intro k hko _
        apply ih
        have := sizeOf_getProp_lt _ k hko
        omega
      | null =>
        apply List.Perm.of_eq
        rw [compareJson, compareJson]
        simp [Value.isNull, typeofV, jsStrictEq, mirror]
        all_goals intro xs1 ys1 e1 e2
        all_goals (first | exact Value.noConfusion e1 | exact Value.noConfusion e2)
      | bool b =>
        apply List.Perm.of_eq
        rw [compareJson, compareJson]
        simp [Value.isNull, typeofV, jsStrictEq, mirror]
        all_goals intro xs1 ys1 e1 e2
        all_goals (first | exact Value.noConfusion e1 | exact Value.noConfusion e2)
      | num b =>
        apply List.Perm.of_eq
        rw [compareJson, compareJson]
        simp [Value.isNull, typeofV, jsStrictEq, mirror]
        all_goals intro xs1 ys1 e1 e2
        all_goals (first | exact Value.noConfusion e1 | exact Value.noConfusion e2)
      | str b =>
        apply List.Perm.of_eq
        rw [compareJson, compareJson]
        simp [Value.isNull, typeofV, jsStrictEq, mirror]
        all_goals intro xs1 ys1 e1 e2
        all_goals (first | exact Value.noConfusion e1 | exact Value.noConfusion e2)
    | obj kvs =>
      cases B with
      | arr ys =>
        rw [compareJson_arrobj, compareJson_objarr]
        apply flatMap_compareKeyRecords_symm
        intro k hko _
        apply ih
        have := sizeOf_getProp_lt _ k hko
        omega
      | obj kvs2 =>
        rw [compareJson_objobj, compareJson_objobj]
        apply flatMap_compareKeyRecords_symm
        intro k hko _
        apply ih
        have := sizeOf_getProp_lt _ k hko
        omega
      | null =>
        apply List.Perm.of_eq
        rw [compareJson, compareJson]
        simp [Value.isNull, typeofV, jsStrictEq, mirror]
        all_goals intro xs1 ys1 e1 e2
        all_goals (first | exact Value.noConfusion e1 | exact Value.noConfusion e2)
      | bool b =>
        apply List.Perm.of_eq
        rw [compareJson, compareJson]
        simp [Value.isNull, typeofV, jsStrictEq, mirror]
        all_goals intro xs1 ys1 e1 e2
        all_goals (first | exact Value.noConfusion e1 | exact Value.noConfusion e2)
      | num b =>
        apply List.Perm.of_eq
        rw [compareJson, compareJson]
        simp [Value.isNull, typeofV, jsStrictEq, mirror]
        all_goals intro xs1 ys1 e1 e2
        all_goals (first | exact Value.noConfusion e1 | exact Value.noConfusion e2)
      | str b =>
        apply List.Perm.of_eq
        rw [compareJson, compareJson]
        simp [Value.isNull, typeofV, jsStrictEq, mirror]
        all_goals intro xs1 ys1 e1 e2
        all_goals (first | exact Value.noConfusion e1 | exact Value.noConfusion e2)

/-- C4: for all values `A`, `B` and every path, the two comparison directions
are permutations of each other under record mirroring: the same multiset of
paths, with every `Added` in one direction a `Removed` at the same path in
the other (value carried over), and every `Modified` a `Modified` with
`oldValue` and `newValue` swapped. -/
theorem compareJson_symm (A B : Value) (p : String) :
    (compareJson B A p).Perm ((compareJson A B p).map mirror) :=
  compareJson_symm_aux (sizeOf A) A B p (le_refl _)

/-! ## Claim C5: identity law -/

theorem mem_rendererKeys_hasKey {o m : Value} {k : String} (h : k ∈ rendererKeys o m) :
    hasKey o k = true ∨ hasKey m k = true := by
  rw [rendererKeys] at h
  have h' : k ∈ dedupFirst (objKeysOf o ++ objKeysOf m) := by
    split at h
    · exact h
    · exact (List.mem_mergeSort).mp h
  rw [mem_dedupFirst, List.mem_append] at h'
  exact h'.imp hasKey_of_mem_objKeys hasKey_of_mem_objKeys

theorem compareJson_self_nil (v : Value) : ∀ p, compareJson v v p = [] := by
  induction v using Value.inductionOn with
  | hnull =>
    intro p; rw [compareJson]; simp [Value.isNull]
    intro xs ys h
    exact Value.noConfusion h
  | hbool b =>
    intro p; rw [compareJson]; simp [Value.isNull, typeofV, jsStrictEq]
    intro xs ys h
    exact Value.noConfusion h
  | hnum n =>
    intro p; rw [compareJson]; simp [Value.isNull, typeofV, jsStrictEq]
    intro xs ys h
    exact Value.noConfusion h
  | hstr s =>
    intro p; rw [compareJson]; simp [Value.isNull, typeofV, jsStrictEq]
    intro xs ys h
    exact Value.noConfusion h
  | harr xs ih =>
    intro p
    rw [compareJson]
    simp only [Value.isNull, typeofV, ne_eq, not_true_eq_false, Bool.false_eq_true,
      if_false, not_false_eq_true, ite_false, ite_true, Nat.max_self]
    rw [List.flatMap_eq_nil_iff]
    intro i hi
    have hilt : i < xs.length := List.mem_range.mp hi
    rw [dif_pos hilt, dif_pos hilt]
    exact ih _ (List.get_mem xs i hilt) _
  | hobj kvs ih =>
    intro p
    rw [compareJson]
    simp only [Value.isNull, typeofV, ne_eq, not_true_eq_false, Bool.false_eq_true,
      if_false, not_false_eq_true, ite_false, ite_true]
    case x => intro xs ys h; exact Value.noConfusion h
    rw [List.flatMap_eq_nil_iff]
    intro k hk
    have hkk : hasKey (.obj kvs) k = true := by
      rcases mem_compareKeys_hasKey hk with h | h <;> exact h
    rw [dif_neg (by simp [hkk]), dif_neg (by simp [hkk])]
    obtain ⟨kv, hkv, _, hg⟩ := getProp_obj_mem hkk
    rw [hg]
    exact ih kv hkv _

theorem diffKeyLines_self_unchanged {v x : Value} {k : String} (ind : Nat)
    (hkk : hasKey v k = true) (hg : getProp v k = x)
    (hx : ∀ ind, ∀ l ∈ generateDiff x x ind, l.type = DiffType.unchanged) :
    ∀ l ∈ diffKeyLines v v ind k, l.type = DiffType.unchanged := by
  intro l hl
  rw [diffKeyLines] at hl
  simp only [hkk, hg, Bool.true_eq_false, if_false, ite_false, ne_eq, not_true_eq_false,
    ite_true] at hl
  cases x with
  | arr xs' =>
    simp [typeofV, Value.isNull] at hl
    rcases hl with rfl | hl | rfl
    · rfl
    · exact hx _ l hl
    · rfl
  | obj kvs' =>
    simp [typeofV, Value.isNull] at hl
    rcases hl with rfl | hl | rfl
    · rfl
    · exact hx _ l hl
    · rfl
  | null =>
    simp [typeofV, Value.isNull, jsStrictEq] at hl
    subst hl; rfl
  | bool b =>
    simp [typeofV, Value.isNull, jsStrictEq] at hl
    subst hl; rfl
  | num n =>
    simp [typeofV, Value.isNull, jsStrictEq] at hl
    subst hl; rfl
  | str s =>
    simp [typeofV, Value.isNull, jsStrictEq] at hl
    subst hl; rfl

theorem generateDiff_self_unchanged (v : Value) :
    ∀ ind, ∀ l ∈ generateDiff v v ind, l.type = DiffType.unchanged := by
  induction v using Value.inductionOn with
  | hnull => intro ind l hl; rw [generateDiff] at hl; simp [Value.isNull] at hl
  | hbool b => intro ind l hl; rw [generateDiff] at hl; simp [Value.isNull, typeofV] at hl
  | hnum n => intro ind l hl; rw [generateDiff] at hl; simp [Value.isNull, typeofV] at hl
  | hstr s => intro ind l hl; rw [generateDiff] at hl; simp [Value.isNull, typeofV] at hl
  | harr xs ih =>
    intro ind l hl
    rw [generateDiff_eq_flatMap _ _ _ (by simp [Value.isNull]) (by simp [typeofV, Value.isNull])]
      at hl
    rw [List.mem_flatMap] at hl
    obtain ⟨k, hk, hl⟩ := hl
    have hkk : hasKey (.arr xs) k = true := by
      rcases mem_rendererKeys_hasKey hk with h | h <;> exact h
    obtain ⟨x, hx, hg⟩ := getProp_arr_mem hkk
    exact diffKeyLines_self_unchanged ind hkk hg (fun i => ih x hx i) l hl
  | hobj kvs ih =>
    intro ind l hl
    rw [generateDiff_eq_flatMap _ _ _ (by simp [Value.isNull]) (by simp [typeofV, Value.isNull])]
      at hl
    rw [List.mem_flatMap] at hl
    obtain ⟨k, hk, hl⟩ := hl
    have hkk : hasKey (.obj kvs) k = true := by
      rcases mem_rendererKeys_hasKey hk with h | h <;> exact h
    obtain ⟨kv, hkv, _, hg⟩ := getProp_obj_mem hkk
    exact diffKeyLines_self_unchanged ind hkk hg (fun i => ih kv hkv i) l hl

/-- C5: comparing any value with itself yields no flat-differ records, and
every line the structural renderer emits for the identical pair is of type
`Unchanged` (a structural bracket line or an unchanged leaf line). -/
theorem compareJson_generateDiff_identity (A : Value) (p : String) (ind : Nat) :
    compareJson A A p = [] ∧ ∀ l ∈ generateDiff A A ind, l.type = DiffType.unchanged :=
  ⟨compareJson_self_nil A p, generateDiff_self_unchanged A ind⟩

/-! ## Claim C7: key enumeration orders -/

theorem mem_rangeStr {a : Nat} {s : String} :
    s ∈ (List.range a).map (fun i => toString i) ↔ ∃ i < a, toString i = s := by
  simp only [List.mem_map, List.mem_range]

theorem nodup_rangeStr (a : Nat) : ((List.range a).map (fun i => toString i)).Nodup := by
  refine List.Nodup.map ?_ (List.nodup_range a)
  intro x y h
  exact toString_nat_injective h

/-- C7: the renderer sorts object keys lexicographically at every level while
array keys stay in positional index order (never sorted), whereas the flat
differ enumerates object keys in first-seen union order — all of `original`'s
keys in insertion order, then `modified`'s new keys. -/
theorem keys_ordering (o m : Value) (xs ys : List Value)
    (ko km : List (String × Value))
    (hno : ¬(o.isArray = true ∧ m.isArray = true))
    (hko : (ko.map Prod.fst).Nodup) (hkm : (km.map Prod.fst).Nodup) :
    (rendererKeys o m).Sorted (· ≤ ·) ∧
    rendererKeys (.arr xs) (.arr ys) =
      (List.range (max xs.length ys.length)).map (fun i => toString i) ∧
    compareKeys (.obj ko) (.obj km) =
      ko.map Prod.fst ++
        (km.map Prod.fst).filter (fun k => decide (k ∉ ko.map Prod.fst)) := by
  refine ⟨?_, ?_, ?_⟩
  · rw [rendererKeys]
    have hcond : ¬(o.isArray && m.isArray) = true := by
      simpa [Bool.and_eq_true] using hno
    simp only [hcond, if_false, Bool.false_eq_true]
    exact List.sorted_mergeSort' _
  · rw [rendererKeys]
    simp only [Value.isArray, Bool.and_self, if_true, objKeysOf, ite_true]
    rw [dedupFirst_append, dedupFirst_eq_self_of_nodup (nodup_rangeStr xs.length),
      ddAux_eq_filter (nodup_rangeStr ys.length), List.filter_map]
    have hfc : (List.range ys.length).filter
        ((fun a => decide (a ∉ (List.range xs.length).map (fun i => toString i))) ∘
          (fun i => toString i)) =
        (List.range ys.length).filter (fun j => decide (xs.length ≤ j)) := by
      refine List.filter_congr (fun j _ => ?_)
      simp only [Function.comp_apply, decide_eq_decide]
      rw [mem_rangeStr]
      constructor
      · intro hnot
        by_contra hlt
        exact hnot ⟨j, by omega, rfl⟩
      · rintro hle ⟨i, hi, he⟩
        have := toString_nat_injective he
        omega
    rw [hfc, ← List.map_append, range_append_filter]
  · rw [compareKeys]
    simp only [objKeysOf]
    rw [dedupFirst_append, dedupFirst_eq_self_of_nodup hko, ddAux_eq_filter hkm]

/-- C7 (witness): concrete instantiation — an object/array pair for the
sortedness clause, two arrays for positional order, two objects for the flat
differ's first-seen union order. -/
theorem keys_ordering_witness :
    (¬((Value.obj [("b", .num 1)]).isArray = true ∧
        (Value.arr [.num 2]).isArray = true)) ∧
    (([("b", Value.num 1)].map Prod.fst).Nodup) ∧
    (([("a", Value.num 2), ("c", Value.num 3)].map Prod.fst).Nodup) ∧
    ((rendererKeys (.obj [("b", .num 1)]) (.arr [.num 2])).Sorted (· ≤ ·) ∧
      rendererKeys (.arr [.num 4, .num 5]) (.arr [.num 6]) =
        (List.range (max [Value.num 4, Value.num 5].length [Value.num 6].length)).map
          (fun i => toString i) ∧
      compareKeys (.obj [("b", .num 1)]) (.obj [("a", .num 2), ("c", .num 3)]) =
        [("b", Value.num 1)].map Prod.fst ++
          ([("a", Value.num 2), ("c", Value.num 3)].map Prod.fst).filter
            (fun k => decide (k ∉ [("b", Value.num 1)].map Prod.fst))) :=
  ⟨by decide, by decide, by decide,
    keys_ordering (.obj [("b", .num 1)]) (.arr [.num 2]) [.num 4, .num 5] [.num 6]
      [("b", .num 1)] [("a", .num 2), ("c", .num 3)]
      (by decide) (by decide) (by decide)⟩

/-! ## Claim C6: path uniqueness

Paths are built by appending `.key` and `[i]` suffixes; a key containing a
separator character (or an empty key at the root) makes the encoding
ambiguous and the claim fails.  Restricted to pure keys the claim holds.
The development below works on the character lists underlying paths. -/

theorem pureKeys_obj {kvs : List (String × Value)} (h : pureKeys (.obj kvs) = true) :
    ∀ kv ∈ kvs, pureKey kv.1 = true ∧ pureKeys kv.2 = true := by
  intro kv hkv
  rw [pureKeys] at h
  simp only [List.all_eq_true] at h
  have := h ⟨kv, hkv⟩ (List.mem_attach _ _)
  simpa using this

theorem pureKeys_arr {xs : List Value} (h : pureKeys (.arr xs) = true) :
    ∀ x ∈ xs, pureKeys x = true := by
  intro x hx
  rw [pureKeys] at h
  simp only [List.all_eq_true] at h
  exact h ⟨x, hx⟩ (List.mem_attach _ _)

theorem pureKeys_getProp {v : Value} {k : String} (hk : hasKey v k = true)
    (h : pureKeys v = true) : pureKeys (getProp v k) = true := by
  rcases getProp_mem_of_hasKey hk with ⟨kvs, rfl, kv, hkv, hg⟩ | ⟨xs, rfl, x, hx, hg⟩
  · rw [hg]; exact (pureKeys_obj h kv hkv).2
  · rw [hg]; exact pureKeys_arr h x hx

theorem isDigit_ne_special {c : Char} (hc : c.isDigit = true) :
    c ≠ '.' ∧ c ≠ '[' ∧ c ≠ ']' := by
  refine ⟨fun he => ?_, fun he => ?_, fun he => ?_⟩ <;>
    (subst he; exact absurd hc (by decide))

theorem pureKey_toString_nat (i : Nat) : pureKey (toString i) = true := by
  rw [pureKey]
  simp only [Bool.and_eq_true, List.all_eq_true]
  constructor
  · rw [toString_nat_data]
    simp [List.isEmpty_iff, digitsOf_ne_nil i]
  · intro c hc
    rw [toString_nat_data] at hc
    have := isDigit_ne_special (digitsOf_all_digits i c hc)
    simp [this.1, this.2.1]

theorem pureKey_of_mem_objKeys {v : Value} {k : String} (hmem : k ∈ objKeysOf v)
    (h : pureKeys v = true) : pureKey k = true := by
  cases v with
  | obj kvs =>
    simp only [objKeysOf, List.mem_map] at hmem
    obtain ⟨kv, hkv, rfl⟩ := hmem
    exact (pureKeys_obj h kv hkv).1
  | arr xs =>
    simp only [objKeysOf, List.mem_map] at hmem
    obtain ⟨i, _, rfl⟩ := hmem
    exact pureKey_toString_nat i
  | null => simp [objKeysOf] at hmem
  | bool b => simp [objKeysOf] at hmem
  | num n => simp [objKeysOf] at hmem
  | str s => simp [objKeysOf] at hmem

/-- `q` addresses a location at or strictly below the path whose characters
are `p`: it is `p` itself or `p` extended through a `.key` or `[i]` step. -/
def isExt (p q : List Char) : Prop :=
  q = p ∨ (∃ r, q = p ++ '.' :: r) ∨ (∃ r, q = p ++ '[' :: r)

theorem isExt_refl (p : List Char) : isExt p p := Or.inl rfl

theorem isExt_shift {p q : List Char} (t : List Char) {c : Char}
    (hc : c = '.' ∨ c = '[') (h : isExt (p ++ c :: t) q) : isExt p q := by
  rcases hc with rfl | rfl
  · rcases h with rfl | ⟨r, rfl⟩ | ⟨r, rfl⟩
    · exact Or.inr (Or.inl ⟨t, rfl⟩)
    · exact Or.inr (Or.inl ⟨t ++ '.' :: r, by simp⟩)
    · exact Or.inr (Or.inl ⟨t ++ '[' :: r, by simp⟩)
  · rcases h with rfl | ⟨r, rfl⟩ | ⟨r, rfl⟩
    · exact Or.inr (Or.inr ⟨t, rfl⟩)
    · exact Or.inr (Or.inr ⟨t ++ '.' :: r, by simp⟩)
    · exact Or.inr (Or.inr ⟨t ++ '[' :: r, by simp⟩)

theorem data_eq_nil_iff {p : String} : p.data = [] ↔ p = "" := by
  rw [String.ext_iff]

theorem keyPath_data {p : String} (k : String) (hp : p ≠ "") :
    (keyPath p k).data = p.data ++ '.' :: k.data := by
  rw [keyPath, if_neg hp]
  simp

theorem itemPath_data (p : String) (i : Nat) :
    (itemPath p i).data = p.data ++ '[' :: ((toString i).data ++ [']']) := by
  rw [itemPath]
  by_cases hp : p = ""
  · subst hp
    simp
  · rw [if_neg hp]
    simp

theorem keyPath_ne_empty {p : String} (k : String) (hp : p ≠ "") : keyPath p k ≠ "" := by
  intro h
  have := congrArg String.data h
  rw [keyPath_data k hp] at this
  simp at this

theorem itemPath_ne_empty (p : String) (i : Nat) : itemPath p i ≠ "" := by
  intro h
  have := congrArg String.data h
  rw [itemPath_data p i] at this
  simp at this

/-- Every record of a comparison rooted at a nonempty path addresses that
path or a location below it. -/
theorem mem_arrIdxRecords_path_ext {xs ys : List Value} {p : String} {i : Nat}
    {r : DiffResult} (hri : r ∈ arrIdxRecords xs ys p i)
    (hrec : ∀ h1 : i < xs.length, ∀ h2 : i < ys.length,
      r ∈ compareJson (xs.get ⟨i, h1⟩) (ys.get ⟨i, h2⟩) (itemPath p i) →
        isExt (itemPath p i).data r.path.data) :
    isExt (itemPath p i).data r.path.data := by
  rw [arrIdxRecords] at hri
  split at hri
  · split at hri
    · rename_i h1 h2
      exact hrec h1 h2 hri
    · rw [List.mem_singleton] at hri
      subst hri
      exact isExt_refl _
  · rw [List.mem_singleton] at hri
    subst hri
    exact isExt_refl _

theorem mem_compareKeyRecords_path_ext {o m : Value} {p k : String}
    {r : DiffResult} (hrk : r ∈ compareKeyRecords o m p k)
    (hrec : hasKey o k = true → hasKey m k = true →
      r ∈ compareJson (getProp o k) (getProp m k) (keyPath p k) →
        isExt (keyPath p k).data r.path.data) :
    isExt (keyPath p k).data r.path.data := by
  rw [compareKeyRecords] at hrk
  split at hrk
  · rw [List.mem_singleton] at hrk
    subst hrk
    exact isExt_refl _
  · split at hrk
    · rw [List.mem_singleton] at hrk
      subst hrk
      exact isExt_refl _
    · rename_i hko hkm
      exact hrec (by simpa using hko) (by simpa using hkm) hrk

theorem compareJson_path_ext : ∀ n (o m : Value) (p : String), sizeOf o ≤ n → p ≠ "" →
    ∀ r ∈ compareJson o m p, isExt p.data r.path.data := by
  intro n
  induction n with
  | zero => intro o m p h _; cases o <;> simp_all
  | succ n ih =>
    intro o m p hsz hp r hr
    have horoot : (orRoot p).data = p.data := by rw [orRoot, if_neg hp]
    by_cases ho : o.isNull = true
    · rw [compareJson, if_pos ho] at hr
      on_goal 2 =>
        intro xs ys h1 h2
        subst h1
        simp [Value.isNull] at ho
      split at hr
      · simp at hr
      · rw [List.mem_singleton] at hr
        subst hr
        show isExt p.data (orRoot p).data
        rw [horoot]
        exact isExt_refl _
    · by_cases hm : m.isNull = true
      · rw [compareJson, if_neg ho, if_pos hm, List.mem_singleton] at hr
        on_goal 2 =>
          intro xs ys h1 h2
          subst h2
          simp [Value.isNull] at hm
        subst hr
        show isExt p.data (orRoot p).data
        rw [horoot]
        exact isExt_refl _
      · by_cases ht : typeofV o ≠ typeofV m
        · rw [compareJson, if_neg ho, if_neg hm, if_pos ht, List.mem_singleton] at hr
          on_goal 2 =>
            intro xs ys h1 h2
            subst h1
            subst h2
            simp [typeofV] at ht
          subst hr
          show isExt p.data (orRoot p).data
          rw [horoot]
          exact isExt_refl _
        · by_cases hs : typeofV o ≠ "object"
          · rw [compareJson, if_neg ho, if_neg hm, if_neg ht, if_pos hs] at hr
            on_goal 2 =>
              intro xs ys h1 h2
              subst h1
              simp [typeofV] at hs
            split at hr
            · simp at hr
            · rw [List.mem_singleton] at hr
              subst hr
              show isExt p.data (orRoot p).data
              rw [horoot]
              exact isExt_refl _
          · have ho' : o.isNull = false := by simpa using ho
            have hm' : m.isNull = false := by simpa using hm
            have hto : typeofV o = "object" := by simpa using hs
            have htm : typeofV m = "object" := by
              rw [← show typeofV o = typeofV m by simpa using ht]
              exact hto
            have hiext : ∀ i, isExt (itemPath p i).data r.path.data → isExt p.data r.path.data := by
              intro i h
              rw [itemPath_data] at h
              exact isExt_shift _ (Or.inr rfl) h
            have hkext : ∀ k, isExt (keyPath p k).data r.path.data → isExt p.data r.path.data := by
              intro k h
              rw [keyPath_data k hp] at h
              exact isExt_shift _ (Or.inl rfl) h
            rcases eq_arr_or_obj_of_typeof_object hto ho' with ⟨xs, rfl⟩ | ⟨kvs, rfl⟩ <;>
              rcases eq_arr_or_obj_of_typeof_object htm hm' with ⟨ys, rfl⟩ | ⟨kvs2, rfl⟩
            · rw [compareJson_arrarr, List.mem_flatMap] at hr
              obtain ⟨i, hir, hri⟩ := hr
              refine hiext i (mem_arrIdxRecords_path_ext hri (fun h1 h2 hmem => ?_))
              refine ih _ _ _ ?_ (itemPath_ne_empty p i) r hmem
              have := List.sizeOf_lt_of_mem (List.get_mem xs i h1)
              simp only [Value.arr.sizeOf_spec] at hsz
              omega
            · rw [compareJson_arrobj, List.mem_flatMap] at hr
              obtain ⟨k, hk, hrk⟩ := hr
              refine hkext k (mem_compareKeyRecords_path_ext hrk (fun hko _ hmem => ?_))
              refine ih _ _ _ ?_ (keyPath_ne_empty k hp) r hmem
              have := sizeOf_getProp_lt _ k hko
              omega
            · rw [compareJson_objarr, List.mem_flatMap] at hr
              obtain ⟨k, hk, hrk⟩ := hr
              refine hkext k (mem_compareKeyRecords_path_ext hrk (fun hko _ hmem => ?_))
              refine ih _ _ _ ?_ (keyPath_ne_empty k hp) r hmem
              have := sizeOf_getProp_lt _ k hko
              omega
            · rw [compareJson_objobj, List.mem_flatMap] at hr
              obtain ⟨k, hk, hrk⟩ := hr
              refine hkext k (mem_compareKeyRecords_path_ext hrk (fun hko _ hmem => ?_))
              refine ih _ _ _ ?_ (keyPath_ne_empty k hp) r hmem
              have := sizeOf_getProp_lt _ k hko
              omega

theorem pureKey_props {k : String} (h : pureKey k = true) :
    k.data ≠ [] ∧ ∀ c ∈ k.data, c ≠ '.' ∧ c ≠ '[' := by
  rw [pureKey] at h
  simp only [Bool.and_eq_true, List.all_eq_true, Bool.not_eq_true'] at h
  refine ⟨by simpa [List.isEmpty_iff] using h.1, fun c hc => ?_⟩
  have := h.2 c hc
  simp only [Bool.or_eq_false_iff, decide_eq_false_iff_not] at this
  exact this

/-- A suffix that may legally follow a complete path: empty, or starting at a
separator. -/
def sepSuffix (s : List Char) : Prop :=
  s = [] ∨ (∃ r, s = '.' :: r) ∨ (∃ r, s = '[' :: r)

theorem isExt_elim {b q : List Char} (h : isExt b q) :
    ∃ s, q = b ++ s ∧ sepSuffix s := by
  rcases h with rfl | ⟨r, rfl⟩ | ⟨r, rfl⟩
  · exact ⟨[], by simp, Or.inl rfl⟩
  · exact ⟨'.' :: r, rfl, Or.inr (Or.inl ⟨r, rfl⟩)⟩
  · exact ⟨'[' :: r, rfl, Or.inr (Or.inr ⟨r, rfl⟩)⟩

theorem sep_cancel : ∀ (k1 k2 s1 s2 : List Char),
    (∀ c ∈ k1, c ≠ '.' ∧ c ≠ '[') → (∀ c ∈ k2, c ≠ '.' ∧ c ≠ '[') →
    sepSuffix s1 → sepSuffix s2 → k1 ++ s1 = k2 ++ s2 → k1 = k2 := by
  intro k1
  induction k1 with
  | nil =>
    intro k2 s1 s2 _ h2 hs1 _ heq
    cases k2 with
    | nil => rfl
    | cons c k2t =>
      simp only [List.nil_append, List.cons_append] at heq
      have hc := h2 c (List.mem_cons_self _ _)
      rcases hs1 with rfl | ⟨r, rfl⟩ | ⟨r, rfl⟩
      · cases heq
      · injection heq with h _
        exact absurd h.symm hc.1
      · injection heq with h _
        exact absurd h.symm hc.2
  | cons c1 k1t ih =>
    intro k2 s1 s2 h1 h2 hs1 hs2 heq
    cases k2 with
    | nil =>
      simp only [List.cons_append, List.nil_append] at heq
      have hc := h1 c1 (List.mem_cons_self _ _)
      rcases hs2 with rfl | ⟨r, rfl⟩ | ⟨r, rfl⟩
      · cases heq
      · injection heq with h _
        exact absurd h hc.1
      · injection heq with h _
        exact absurd h hc.2
    | cons c2 k2t =>
      simp only [List.cons_append] at heq
      injection heq with hc ht
      subst hc
      rw [ih k2t s1 s2 (fun c hc => h1 c (List.mem_cons_of_mem _ hc))
        (fun c hc => h2 c (List.mem_cons_of_mem _ hc)) hs1 hs2 ht]

theorem bracket_cancel : ∀ (d1 d2 s1 s2 : List Char),
    ']' ∉ d1 → ']' ∉ d2 → d1 ++ ']' :: s1 = d2 ++ ']' :: s2 → d1 = d2 := by
  intro d1
  induction d1 with
  | nil =>
    intro d2 s1 s2 _ h2 heq
    cases d2 with
    | nil => rfl
    | cons c d2t =>
      simp only [List.nil_append, List.cons_append] at heq
      injection heq with h _
      exact absurd (h ▸ List.mem_cons_self c d2t) (h ▸ h2)
  | cons c1 d1t ih =>
    intro d2 s1 s2 h1 h2 heq
    cases d2 with
    | nil =>
      simp only [List.cons_append, List.nil_append] at heq
      injection heq with h _
      exact absurd (List.mem_cons_self c1 d1t) (h ▸ h1)
    | cons c2 d2t =>
      simp only [List.cons_append] at heq
      injection heq with hc ht
      subst hc
      rw [ih d2t s1 s2 (fun hm => h1 (List.mem_cons_of_mem _ hm))
        (fun hm => h2 (List.mem_cons_of_mem _ hm)) ht]

theorem key_ext_disjoint {common : List Char} {k1 k2 : String} {q : List Char}
    (hp1 : pureKey k1 = true) (hp2 : pureKey k2 = true) (hne : k1 ≠ k2)
    (h1 : isExt (common ++ k1.data) q) (h2 : isExt (common ++ k2.data) q) : False := by
  obtain ⟨s1, hq1, hs1⟩ := isExt_elim h1
  obtain ⟨s2, hq2, hs2⟩ := isExt_elim h2
  rw [hq1, List.append_assoc, List.append_assoc] at hq2
  have hk := List.append_cancel_left hq2
  have := sep_cancel k1.data k2.data s1 s2 (pureKey_props hp1).2 (pureKey_props hp2).2
    hs1 hs2 hk
  exact hne (String.ext this)

theorem not_rbracket_mem_toString (i : Nat) : ']' ∉ (toString i).data := by
  rw [toString_nat_data]
  intro hmem
  exact (isDigit_ne_special (digitsOf_all_digits i _ hmem)).2.2 rfl

theorem idx_ext_disjoint {common : List Char} {i j : Nat} {q : List Char} (hne : i ≠ j)
    (h1 : isExt (common ++ '[' :: ((toString i).data ++ [']'])) q)
    (h2 : isExt (common ++ '[' :: ((toString j).data ++ [']'])) q) : False := by
  obtain ⟨s1, hq1, hs1⟩ := isExt_elim h1
  obtain ⟨s2, hq2, hs2⟩ := isExt_elim h2
  rw [hq1, List.append_assoc, List.append_assoc] at hq2
  have hk := List.append_cancel_left hq2
  simp only [List.cons_append, List.append_assoc, List.singleton_append] at hk
  injection hk with _ ht
  have := bracket_cancel (toString i).data (toString j).data s1 s2
    (not_rbracket_mem_toString i) (not_rbracket_mem_toString j) ht
  exact hne (toString_nat_injective (String.ext this))

theorem keyPath_data_common (p k : String) :
    (keyPath p k).data = (if p = "" then ([] : List Char) else p.data ++ ['.']) ++ k.data := by
  by_cases hp : p = ""
  · subst hp
    rw [keyPath, if_pos rfl, if_pos rfl]
    simp
  · rw [keyPath_data k hp, if_neg hp]
    simp

theorem keyPath_ne_empty_of_pure {p k : String} (hk : pureKey k = true) :
    keyPath p k ≠ "" := by
  by_cases hp : p = ""
  · subst hp
    rw [keyPath, if_pos rfl]
    intro h
    exact (pureKey_props hk).1 (by rw [h])
  · exact keyPath_ne_empty k hp

theorem compareKeyRecords_path_ext {o m : Value} {p k : String} (hne : keyPath p k ≠ "") :
    ∀ r ∈ compareKeyRecords o m p k, isExt (keyPath p k).data r.path.data := by
  intro r hr
  refine mem_compareKeyRecords_path_ext hr (fun hko _ hmem => ?_)
  exact compareJson_path_ext (sizeOf (getProp o k)) _ _ _ (le_refl _) hne r hmem

theorem arrIdxRecords_path_ext {xs ys : List Value} {p : String} {i : Nat} :
    ∀ r ∈ arrIdxRecords xs ys p i, isExt (itemPath p i).data r.path.data := by
  intro r hr
  refine mem_arrIdxRecords_path_ext hr (fun h1 h2 hmem => ?_)
  exact compareJson_path_ext (sizeOf (xs.get ⟨i, h1⟩)) _ _ _ (le_refl _)
    (itemPath_ne_empty p i) r hmem

theorem nodup_flatMap_compareKeyRecords (o m : Value) (p : String)
    (hpo : pureKeys o = true) (hpm : pureKeys m = true)
    (hrec : ∀ k, hasKey o k = true → hasKey m k = true →
      ((compareJson (getProp o k) (getProp m k) (keyPath p k)).map
        (fun r => r.path)).Nodup) :
    (((compareKeys o m).flatMap (compareKeyRecords o m p)).map
      (fun r => r.path)).Nodup := by
  rw [List.map_flatMap]
  refine List.nodup_flatMap.2 ⟨?_, ?_⟩
  · intro k _
    rw [compareKeyRecords]
    split
    · simp
    · split
      · simp
      · rename_i hko hkm
        exact hrec k (by simpa using hko) (by simpa using hkm)
  · have hnd : (compareKeys o m).Nodup := by
      rw [compareKeys]; exact nodup_dedupFirst
    refine List.Pairwise.imp_of_mem ?_ hnd
    intro k1 k2 hm1 hm2 hne
    have hpk : ∀ k ∈ compareKeys o m, pureKey k = true := by
      intro k hk
      rw [compareKeys, mem_dedupFirst, List.mem_append] at hk
      rcases hk with h | h
      · exact pureKey_of_mem_objKeys h hpo
      · exact pureKey_of_mem_objKeys h hpm
    have hpk1 := hpk k1 hm1
    have hpk2 := hpk k2 hm2
    intro q hq1 hq2
    simp only [List.mem_map] at hq1 hq2
    obtain ⟨r1, hr1, hqe1⟩ := hq1
    obtain ⟨r2, hr2, hqe2⟩ := hq2
    have e1 := compareKeyRecords_path_ext (keyPath_ne_empty_of_pure hpk1) r1 hr1
    have e2 := compareKeyRecords_path_ext (keyPath_ne_empty_of_pure hpk2) r2 hr2
    rw [keyPath_data_common] at e1 e2
    subst hqe1
    rw [hqe2] at e2
    exact key_ext_disjoint hpk1 hpk2 hne e1 e2

theorem nodup_flatMap_arrIdxRecords (xs ys : List Value) (p : String)
    (hrec : ∀ i, ∀ h1 : i < xs.length, ∀ h2 : i < ys.length,
      ((compareJson (xs.get ⟨i, h1⟩) (ys.get ⟨i, h2⟩) (itemPath p i)).map
        (fun r => r.path)).Nodup) :
    (((List.range (max xs.length ys.length)).flatMap (arrIdxRecords xs ys p)).map
      (fun r => r.path)).Nodup := by
  rw [List.map_flatMap]
  refine List.nodup_flatMap.2 ⟨?_, ?_⟩
  · intro i _
    rw [arrIdxRecords]
    split
    · split
      · rename_i h1 h2
        exact hrec i h1 h2
      · simp
    · simp
  · refine List.Pairwise.imp ?_ (List.pairwise_lt_range _)
    intro i j hij
    intro q hq1 hq2
    simp only [List.mem_map] at hq1 hq2
    obtain ⟨r1, hr1, hqe1⟩ := hq1
    obtain ⟨r2, hr2, hqe2⟩ := hq2
    have e1 := arrIdxRecords_path_ext r1 hr1
    have e2 := arrIdxRecords_path_ext r2 hr2
    rw [itemPath_data] at e1 e2
    subst hqe1
    rw [hqe2] at e2
    exact idx_ext_disjoint (Nat.ne_of_lt hij) e1 e2

theorem compareJson_paths_nodup_aux : ∀ n (o m : Value) (p : String), sizeOf o ≤ n →
    pureKeys o = true → pureKeys m = true →
    ((compareJson o m p).map (fun r => r.path)).Nodup := by
  intro n
  induction n with
  | zero => intro o m p h _ _; cases o <;> simp_all
  | succ n ih =>
    intro o m p hsz hpo hpm
    by_cases ho : o.isNull = true
    · rw [compareJson, if_pos ho]
      on_goal 2 =>
        intro xs ys h1 h2
        subst h1
        simp [Value.isNull] at ho
      split <;> simp
    · by_cases hm : m.isNull = true
      · rw [compareJson, if_neg ho, if_pos hm]
        on_goal 2 =>
          intro xs ys h1 h2
          subst h2
          simp [Value.isNull] at hm
        simp
      · by_cases ht : typeofV o ≠ typeofV m
        · rw [compareJson, if_neg ho, if_neg hm, if_pos ht]
          on_goal 2 =>
            intro xs ys h1 h2
            subst h1
            subst h2
            simp [typeofV] at ht
          simp
        · by_cases hs : typeofV o ≠ "object"
          · rw [compareJson, if_neg ho, if_neg hm, if_neg ht, if_pos hs]
            on_goal 2 =>
              intro xs ys h1 h2
              subst h1
              simp [typeofV] at hs
            split <;> simp
          · have ho' : o.isNull = false := by simpa using ho
            have hm' : m.isNull = false := by simpa using hm
            have hto : typeofV o = "object" := by simpa using hs
            have htm : typeofV m = "object" := by
              rw [← show typeofV o = typeofV m by simpa using ht]
              exact hto
            rcases eq_arr_or_obj_of_typeof_object hto ho' with ⟨xs, rfl⟩ | ⟨kvs, rfl⟩ <;>
              rcases eq_arr_or_obj_of_typeof_object htm hm' with ⟨ys, rfl⟩ | ⟨kvs2, rfl⟩
            · rw [compareJson_arrarr]
              refine nodup_flatMap_arrIdxRecords xs ys p (fun i h1 h2 => ?_)
              refine ih _ _ _ ?_ (pureKeys_arr hpo _ (List.get_mem xs i h1))
                (pureKeys_arr hpm _ (List.get_mem ys i h2))
              have := List.sizeOf_lt_of_mem (List.get_mem xs i h1)
              simp only [Value.arr.sizeOf_spec] at hsz
              omega
            · rw [compareJson_arrobj]
              refine nodup_flatMap_compareKeyRecords _ _ p hpo hpm (fun k hko hkm => ?_)
              refine ih _ _ _ ?_ (pureKeys_getProp hko hpo) (pureKeys_getProp hkm hpm)
              have := sizeOf_getProp_lt _ k hko
              omega
            · rw [compareJson_objarr]
              refine nodup_flatMap_compareKeyRecords _ _ p hpo hpm (fun k hko hkm => ?_)
              refine ih _ _ _ ?_ (pureKeys_getProp hko hpo) (pureKeys_getProp hkm hpm)
              have := sizeOf_getProp_lt _ k hko
              omega
            · rw [compareJson_objobj]
              refine nodup_flatMap_compareKeyRecords _ _ p hpo hpm (fun k hko hkm => ?_)
              refine ih _ _ _ ?_ (pureKeys_getProp hko hpo) (pureKeys_getProp hkm hpm)
              have := sizeOf_getProp_lt _ k hko
              omega

/-- C6 (amended): for inputs all of whose object keys are nonempty and free
of the separator characters `.` and `[`, no two records of one `compareJson`
call carry the same path string. -/
theorem compareJson_paths_nodup (A B : Value)
    (hA : pureKeys A = true) (hB : pureKeys B = true) :
    ((compareJson A B "").map (fun r => r.path)).Nodup :=
  compareJson_paths_nodup_aux (sizeOf A) A B "" (le_refl _) hA hB

unseal compareJson pureKeys in
/-- C6 (counterexample): with the key `"a.b"` present, the comparison of
`{a:{b:1}}` and `{a:{b:2}, "a.b":3}` emits two records both at path `"a.b"`
— one from the nested leaf, one from the top-level key. -/
theorem compareJson_paths_duplicate :
    (compareJson (.obj [("a", .obj [("b", .num 1)])])
        (.obj [("a", .obj [("b", .num 2)]), ("a.b", .num 3)]) "").map
      (fun r => r.path) = ["a.b", "a.b"] ∧
    ¬((compareJson (.obj [("a", .obj [("b", .num 1)])])
        (.obj [("a", .obj [("b", .num 2)]), ("a.b", .num 3)]) "").map
      (fun r => r.path)).Nodup := by
  constructor <;> decide

unseal compareJson pureKeys in
/-- C6 (witness): the amended claim applied to a concrete pure-keyed pair. -/
theorem compareJson_paths_nodup_witness :
    pureKeys (.obj [("a", .obj [("b", .num 1)]), ("c", .arr [.num 1, .num 2])]) = true ∧
    pureKeys (.obj [("a", .null), ("d", .num 7)]) = true ∧
    ((compareJson (.obj [("a", .obj [("b", .num 1)]), ("c", .arr [.num 1, .num 2])])
        (.obj [("a", .null), ("d", .num 7)]) "").map (fun r => r.path)).Nodup :=
  ⟨by decide, by decide,
    compareJson_paths_nodup
      (.obj [("a", .obj [("b", .num 1)]), ("c", .arr [.num 1, .num 2])])
      (.obj [("a", .null), ("d", .num 7)]) (by decide) (by decide)⟩

/-! ## Claims C8–C10: the history store -/

/-- C8: adding content identical to an existing entry (unique in the list, as
the store's own operations maintain) moves that entry to the front with its
timestamp refreshed to the later add's time, creates no duplicate, and leaves
the list length unchanged. -/
theorem addToHistory_duplicate_moves_to_front (now : Nat) (content : String)
    (h : List HistoryItem) (hne : jsTrim content ≠ "")
    (hone : (h.filter (fun item => item.content == content)).length = 1) :
    ∃ i, ∃ hi : i < h.length,
      (h.get ⟨i, hi⟩).content = content ∧
      addToHistory now content h = { h.get ⟨i, hi⟩ with timestamp := now } :: h.eraseIdx i ∧
      (addToHistory now content h).length = h.length ∧
      ((addToHistory now content h).filter
        (fun item => item.content == content)).length = 1 := by
  have hex : ∃ x ∈ h, x.content == content := by
    rcases hfe : h.filter (fun item => item.content == content) with _ | ⟨x, xs⟩
    · rw [hfe] at hone; simp at hone
    · have hx : x ∈ h.filter (fun item => item.content == content) := by
        rw [hfe]; exact List.mem_cons_self x xs
      exact ⟨x, (List.mem_filter.mp hx).1, (List.mem_filter.mp hx).2⟩
  have hidx : h.findIdx (fun item => item.content == content) < h.length :=
    List.findIdx_lt_length_of_exists hex
  set i := h.findIdx (fun item => item.content == content) with hi_def
  have hpi : (h.get ⟨i, hidx⟩).content == content := by
    have := @List.findIdx_getElem _ (fun item => item.content == content) h hidx
    simpa [hi_def] using this
  have hpc : (h.get ⟨i, hidx⟩).content = content := by simpa using hpi
  have hres : addToHistory now content h =
      { h.get ⟨i, hidx⟩ with timestamp := now } :: h.eraseIdx i := by
    rw [addToHistory]
    simp only [hne, if_false, ← hi_def, hidx, dif_pos]
  refine ⟨i, hidx, hpc, hres, ?_, ?_⟩
  · rw [hres]
    simp [List.length_eraseIdx_of_lt hidx]
    omega
  · -- split `h` around index `i`; the filter keeps exactly the entry at `i`
    have hsplit : h = h.take i ++ h.get ⟨i, hidx⟩ :: h.drop (i + 1) := by
      conv_lhs => rw [← List.take_append_drop i h]
      rw [List.drop_eq_getElem_cons hidx]
      simp
    have herase : h.eraseIdx i = h.take i ++ h.drop (i + 1) :=
      List.eraseIdx_eq_take_drop_succ h i
    rw [hres, herase]
    rw [hsplit] at hone
    simp only [List.filter_append, List.filter_cons, hpi, if_pos, List.length_append,
      List.length_cons] at hone ⊢
    omega

/-- C8 (witness): a two-entry history where the second entry's content is
re-added: it moves to the front with the refreshed timestamp. -/
theorem addToHistory_duplicate_witness :
    jsTrim "b" ≠ "" ∧
    (([⟨"a", 1, "a"⟩, ⟨"b", 2, "b"⟩] : List HistoryItem).filter
      (fun item => item.content == "b")).length = 1 ∧
    (∃ i, ∃ hi : i < ([⟨"a", 1, "a"⟩, ⟨"b", 2, "b"⟩] : List HistoryItem).length,
      ((([⟨"a", 1, "a"⟩, ⟨"b", 2, "b"⟩] : List HistoryItem).get ⟨i, hi⟩).content = "b") ∧
      addToHistory 9 "b" [⟨"a", 1, "a"⟩, ⟨"b", 2, "b"⟩] =
        { ([⟨"a", 1, "a"⟩, ⟨"b", 2, "b"⟩] : List HistoryItem).get ⟨i, hi⟩ with
            timestamp := 9 } :: ([⟨"a", 1, "a"⟩, ⟨"b", 2, "b"⟩] : List HistoryItem).eraseIdx i ∧
      (addToHistory 9 "b" [⟨"a", 1, "a"⟩, ⟨"b", 2, "b"⟩]).length =
        ([⟨"a", 1, "a"⟩, ⟨"b", 2, "b"⟩] : List HistoryItem).length ∧
      ((addToHistory 9 "b" [⟨"a", 1, "a"⟩, ⟨"b", 2, "b"⟩]).filter
        (fun item => item.content == "b")).length = 1) :=
  ⟨by decide, by decide,
    addToHistory_duplicate_moves_to_front 9 "b" [⟨"a", 1, "a"⟩, ⟨"b", 2, "b"⟩]
      (by decide) (by decide)⟩

/-- C9: every history operation keeps the list within the 50-item cap (from a
state within the cap), and an add of new content at the cap evicts exactly
the entry at the back — the oldest — to make room at the front. -/
theorem history_cap_and_eviction (now : Nat) (c : String) (i : Nat)
    (h : List HistoryItem) (hcap : h.length ≤ MAX_HISTORY_ITEMS) :
    (addToHistory now c h).length ≤ MAX_HISTORY_ITEMS ∧
    (removeFromHistory i h).length ≤ MAX_HISTORY_ITEMS ∧
    (clearHistory).length ≤ MAX_HISTORY_ITEMS ∧
    (jsTrim c ≠ "" → (∀ x ∈ h, x.content ≠ c) → h.length = MAX_HISTORY_ITEMS →
      addToHistory now c h =
        { content := c, timestamp := now, preview := createPreview c } :: h.dropLast) := by
  refine ⟨?_, ?_, ?_, ?_⟩
  · simp only [addToHistory]
    split
    · exact hcap
    · split
      · rename_i hlt
        simp [List.length_eraseIdx_of_lt hlt]
        omega
      · split
        · exact List.length_take_le _ _
        · rename_i hngt
          simp only [List.length_cons, gt_iff_lt, not_lt] at hngt ⊢
          exact hngt
  · exact le_trans ((List.eraseIdx_sublist h i).length_le) hcap
  · simp [clearHistory]
  · intro hne hfresh hfull
    have hnone : ∀ x ∈ h, (fun item => item.content == c) x = false := by
      intro x hx
      simpa using hfresh x hx
    have hidx : h.findIdx (fun item => item.content == c) = h.length :=
      List.findIdx_eq_length_of_false hnone
    simp only [addToHistory, hne, if_false, hidx, lt_irrefl, dite_false]
    have hgt : MAX_HISTORY_ITEMS <
        ({ content := c, timestamp := now, preview := createPreview c } :: h).length := by
      simp [hfull]
    simp only [gt_iff_lt, hgt, if_pos]
    rw [show MAX_HISTORY_ITEMS = (MAX_HISTORY_ITEMS - 1) + 1 from rfl]
    rw [List.take_succ_cons, List.dropLast_eq_take, hfull]

/-- C9 (witness): a full 50-item history plus an add of fresh content: the
cap holds after each operation and the back entry is evicted. -/
theorem history_cap_and_eviction_witness :
    (List.replicate 50 (⟨"x", 0, "x"⟩ : HistoryItem)).length ≤ MAX_HISTORY_ITEMS ∧
    (addToHistory 5 "y" (List.replicate 50 ⟨"x", 0, "x"⟩)).length ≤ MAX_HISTORY_ITEMS ∧
    (removeFromHistory 3 (List.replicate 50 ⟨"x", 0, "x"⟩)).length ≤ MAX_HISTORY_ITEMS ∧
    (clearHistory).length ≤ MAX_HISTORY_ITEMS ∧
    (jsTrim "y" ≠ "" → (∀ x ∈ List.replicate 50 (⟨"x", 0, "x"⟩ : HistoryItem),
        x.content ≠ "y") →
      (List.replicate 50 (⟨"x", 0, "x"⟩ : HistoryItem)).length = MAX_HISTORY_ITEMS →
      addToHistory 5 "y" (List.replicate 50 ⟨"x", 0, "x"⟩) =
        { content := "y", timestamp := 5, preview := createPreview "y" } ::
          (List.replicate 50 (⟨"x", 0, "x"⟩ : HistoryItem)).dropLast) :=
  ⟨by decide,
    history_cap_and_eviction 5 "y" 3 (List.replicate 50 ⟨"x", 0, "x"⟩) (by decide)⟩

/-- C10: adding a string that is empty or consists only of whitespace leaves
the history list completely unchanged. -/
theorem addToHistory_blank_noop (now : Nat) (content : String) (h : List HistoryItem)
    (hws : ∀ c ∈ content.data, c.isWhitespace = true) :
    addToHistory now content h = h := by
  have htrim : jsTrim content = "" := by
    have hdrop : content.data.dropWhile Char.isWhitespace = [] :=
      List.dropWhile_eq_nil_iff.mpr hws
    rw [jsTrim, hdrop]
    rfl
  rw [addToHistory]
  simp [htrim]

/-- C10 (witness): adding the two-space string to a one-entry history is a
no-op. -/
theorem addToHistory_blank_noop_witness :
    (∀ c ∈ ("  " : String).data, c.isWhitespace = true) ∧
      addToHistory 7 "  " [⟨"a", 1, "a"⟩] = [⟨"a", 1, "a"⟩] :=
  ⟨by decide, addToHistory_blank_noop 7 "  " [⟨"a", 1, "a"⟩] (by decide)⟩

end JsonTool
